import Mathlib

/-!
Verification of the crunch-rs wordlist generator (src/main.rs).

The program enumerates strings over a charset (either all strings whose
length lies in a range, or all instantiations of a template whose
characters are literals, charset slots written as the at-sign, or digit
slots written as the percent sign), optionally suppressing strings that
contain two adjacent equal non-digit characters, and precomputes the
number of lines it will emit.

Modelling conventions:
- Strings are lists of characters (the source compares per-character
  scalar values; template substitution replaces one character per slot,
  so character indices and the source's byte ranges coincide on the
  one-scalar-per-slot level the program works at).
- Rust u64 / u32 / usize arithmetic is modelled over Nat with an explicit
  reduction modulo 2^64 or 2^32 wherever the source performs an
  arithmetic operation that can wrap in a release build.
- Runtime panics (integer underflow followed by an out-of-bounds index,
  or Option::unwrap on None) are modelled by Option results, or by the
  ok flag of a generation result being false; the lines and progress
  units recorded before the panic are kept.
-/

/-- Modulus of Rust u64 arithmetic. -/
def U64 : Nat := 2 ^ 64

/-- Modulus of Rust u32 arithmetic (usize-to-u32 casts reduce modulo this). -/
def U32 : Nat := 2 ^ 32

/-- The digit alphabet used for percent slots (constant DIGITS in the source). -/
def DIGITS : List Char := ['0', '1', '2', '3', '4', '5', '6', '7', '8', '9']

/-- UTF-8 byte length of a string held as a character list.  Rust's
str::len counts bytes, not characters, so every occurrence of .len() on
string data in the source is modelled with this and not with the
character count. -/
def utf8Len (l : List Char) : Nat := (l.map Char.utf8Size).sum

/-- The resolved configuration consumed by the counter and the generator
(struct Config in the source; the output-file selector is abstracted away
since the sink is modelled as the list of emitted lines). -/
structure Config where
  min_len : Nat
  max_len : Nat
  charset : List Char
  template : Option (List Char)
  no_duplicates : Bool
deriving DecidableEq, Repr

/-- Scan of consecutive character pairs: true at the first pair that is
equal with both characters non-digits (the index loop inside
has_consecutive_duplicates). -/
def hcdAux : List Char → Bool
  | c1 :: c2 :: rest =>
    if (!c1.isDigit && !c2.isDigit) && c1 == c2 then true
    else hcdAux (c2 :: rest)
  | _ => false

/-- Function has_consecutive_duplicates of the source.  On the empty
string the loop bound chars.len() - 1 underflows and the subsequent
index panics, which is modelled by none; on a non-empty string the
function totals and returns the pair scan. -/
def has_consecutive_duplicates (word : List Char) : Option Bool :=
  match word with
  | [] => none
  | _ => some (hcdAux word)

/-- Function calculate_template_size_no_duplicates of the source: a fold
over the template keeping (total, last_was_char), with wrapping u64
arithmetic.  charset.len() is the UTF-8 byte length of the charset, and
charset.len() as u64 - 1 wraps to 2^64 - 1 on an empty charset. -/
def calculate_template_size_no_duplicates (template : List Char) (charset : List Char) : Nat :=
  (template.foldl (fun (acc : Nat × Bool) c =>
    match c with
    | '@' =>
      if acc.2 then (acc.1 * ((utf8Len charset + U64 - 1) % U64) % U64, true)
      else (acc.1 * utf8Len charset % U64, true)
    | '%' => (acc.1 * 10 % U64, false)
    | _ => (acc.1, false)) ((1 : Nat), false)).1

/-- Function calculate_combinations_no_duplicates of the source.  Both
arguments are u32 values.  For lengths above one the loop multiplies the
running u64 total by (charset_len - 1) once per remaining position; the
u32 subtraction wraps to 2^32 - 1 when charset_len is zero, and every
multiplication wraps modulo 2^64. -/
def calculate_combinations_no_duplicates (length : Nat) (charset_len : Nat) : Nat :=
  if length = 0 then 1
  else if length = 1 then charset_len
  else
    (List.range (length - 1)).foldl
      (fun total _ => total * ((charset_len + U32 - 1) % U32) % U64) charset_len

/-- Function calculate_size of the source.  Range lengths are cast from
usize to u32 at the call sites (len as u32), the substitutable-slot
counts of a template are cast likewise, charset.len() is the UTF-8 byte
length of the charset, and all additions, multiplications and powers
are wrapping u64 (or usize, same width) operations. -/
def calculate_size (cfg : Config) : Nat :=
  match cfg.template with
  | some template =>
    if cfg.no_duplicates then
      calculate_template_size_no_duplicates template cfg.charset
    else
      let char_positions := (template.filter (fun c => c == '@')).length
      let num_positions := (template.filter (fun c => c == '%')).length
      let char_combinations := utf8Len cfg.charset ^ (char_positions % U32) % U64
      let num_combinations := (10 : Nat) ^ (num_positions % U32) % U64
      char_combinations * num_combinations % U64
  | none =>
    if cfg.no_duplicates then
      (List.range' cfg.min_len (cfg.max_len + 1 - cfg.min_len)).foldl
        (fun total len =>
          (total + calculate_combinations_no_duplicates (len % U32) (utf8Len cfg.charset % U32)) % U64)
        0
    else
      (List.range' cfg.min_len (cfg.max_len + 1 - cfg.min_len)).foldl
        (fun total len => (total + utf8Len cfg.charset ^ (len % U32) % U64) % U64) 0

/-- Mathematical total for a configuration without duplicate
suppression, per the specification's counting formulas (sum of
charset-size powers over the length range, or the product of per-slot
alphabet sizes of a template).  Used only to phrase no-overflow side
conditions and the overflow analysis; it performs no wrapping. -/
def exactCount (cfg : Config) : Nat :=
  match cfg.template with
  | some t =>
    cfg.charset.length ^ (t.filter (fun c => c == '@')).length *
      10 ^ (t.filter (fun c => c == '%')).length
  | none =>
    ((List.range' cfg.min_len (cfg.max_len + 1 - cfg.min_len)).map
      (fun L => cfg.charset.length ^ L)).sum

/-- Result of a generator run: the lines written to the sink in order,
the number of progress units signalled, and whether the run terminated
normally (ok = false records a panic; the fields hold what happened
before it). -/
structure GenResult where
  lines : List (List Char)
  units : Nat
  ok : Bool
deriving DecidableEq, Repr

/-- The length-zero body of generate_all_combinations: when suppression
is off the word is written without consulting the duplicate predicate;
when it is on the predicate decides emission (and panics on the empty
word, reached before the progress increment). -/
def emitLeaf (current : List Char) (noDup : Bool) : GenResult :=
  if noDup then
    match has_consecutive_duplicates current with
    | none => ⟨[], 0, false⟩
    | some true => ⟨[], 1, true⟩
    | some false => ⟨[current], 1, true⟩
  else ⟨[current], 1, true⟩

/-- The pruning test of the character loop: with suppression on and a
non-empty current prefix, a candidate equal to the last character of the
prefix and not a digit is skipped. -/
def skipCond (noDup : Bool) (current : List Char) (c : Char) : Bool :=
  noDup && !current.isEmpty && c == current.getLast! && !c.isDigit

/-- The character loop of generate_all_combinations, iterating over the
suffix rest of the charset: a candidate next character passing the
pruning test is skipped; otherwise descend runs the recursion with the
character appended, and a panic below aborts the remaining iterations. -/
def genGoAux (cs : List Char) (noDup : Bool) (descend : List Char → GenResult)
    (current : List Char) : List Char → GenResult
  | [] => ⟨[], 0, true⟩
  | c :: rest =>
    if skipCond noDup current c then
      genGoAux cs noDup descend current rest
    else
      let r := descend (current ++ [c])
      if r.ok then
        let r2 := genGoAux cs noDup descend current rest
        ⟨r.lines ++ r2.lines, r.units + r2.units, r2.ok⟩
      else ⟨r.lines, r.units, false⟩

/-- Function generate_all_combinations of the source (writer and
progress are reified into the result): at length zero the word is
emitted subject to the duplicate check, otherwise the character loop
descends at length one less. -/
def generate_all_combinations : List Char → Nat → List Char → Bool → GenResult
  | current, 0, _, noDup => emitLeaf current noDup
  | current, n + 1, cs, noDup =>
    genGoAux cs noDup (fun cur2 => generate_all_combinations cur2 n cs noDup) current cs

/-- The substitutable positions of a template: index and character of
every at-sign or percent-sign slot, left to right. -/
def positionsOf (t : List Char) : List (Nat × Char) :=
  t.enum.filter (fun p => p.2 == '@' || p.2 == '%')

/-- The alphabet a slot draws from: the charset for an at-sign slot,
the digits for a percent slot. -/
def alphabetOf (cs : List Char) (c : Char) : List Char :=
  if c == '@' then cs else DIGITS

/-- The radix of a slot, as recomputed inside the increment loop of the
source: config.charset.len() — the UTF-8 byte length of the charset —
for an at-sign slot, DIGITS.len() (ten bytes) for a percent slot. -/
def radixOf (cs : List Char) (c : Char) : Nat :=
  if c == '@' then utf8Len cs else utf8Len DIGITS

/-- The byte-indexed one-byte-range replacement of the source
(word.replace_range at byte range i to i + 1, with the replacement a
single character): walking the word by UTF-8 sizes, the byte range is a
whole character exactly when it lands on a one-byte character, which is
then replaced; a range that starts or ends inside a multi-byte
character, or past the end of the word, panics (none). -/
def replaceByteRange : List Char → Nat → Char → Option (List Char)
  | [], _, _ => none
  | c :: rest, i, ch =>
    if i = 0 then (if c.utf8Size = 1 then some (ch :: rest) else none)
    else if c.utf8Size ≤ i then
      (replaceByteRange rest (i - c.utf8Size) ch).map (fun r => c :: r)
    else none

/-- Rendering step of generate_from_template: one slot of the current
word is overwritten via replace_range at the slot's byte index (the
template's character indices and the mutated word's byte indices drift
apart as soon as any multi-byte character is involved, exactly as in the
source), with the alphabet character selected by the slot's odometer
digit (charset.chars().nth(idx).unwrap(); the unwrap panic on an
out-of-range digit is modelled by none). -/
def renderStep (cs : List Char) (w? : Option (List Char)) (pd : (Nat × Char) × Nat) :
    Option (List Char) :=
  match w? with
  | none => none
  | some w =>
    match (alphabetOf cs pd.1.2).get? pd.2 with
    | none => none
    | some ch => replaceByteRange w pd.1.1 ch

/-- One full render pass over all slots, starting from the word left by
the previous iteration (the source mutates one buffer across
iterations). -/
def renderOpt (cs : List Char) (word : List Char) (pairs : List ((Nat × Char) × Nat)) :
    Option (List Char) :=
  pairs.foldl (renderStep cs) (some word)

/-- Odometer increment of generate_from_template, written as forward
recursion over the position list: the carry starts at the last digit;
a digit that overflows its radix is reset to zero and the carry moves
left (so when the carry leaves a whole suffix, that suffix has been
reset to zeros), and a carry that leaves the first digit terminates the
loop (none). -/
def odoInc (cs : List Char) : List (Nat × Char) → List Nat → Option (List Nat)
  | [p], [d] => if d + 1 < radixOf cs p.2 then some [d + 1] else none
  | p :: ps, d :: ds =>
    (match odoInc cs ps ds with
     | some ds2 => some (d :: ds2)
     | none =>
       if d + 1 < radixOf cs p.2 then some ((d + 1) :: List.replicate ds.length 0) else none)
  | _, _ => none

/-- Product of the radices of a position list: the number of odometer
states, hence of candidates a complete template run considers. -/
def prodRadix (cs : List Char) : List (Nat × Char) → Nat
  | [] => 1
  | p :: ps => radixOf cs p.2 * prodRadix cs ps

/-- The render-emit-increment loop of generate_from_template.  Each
iteration renders into the word carried over from the previous
iteration (a render panic, or the duplicate predicate panicking on an
empty render, is recorded as an abnormal stop), emits the rendered word
unless suppression filters it, signals one progress unit, and then
increments the odometer; with no substitutable position the source
underflows positions.len() - 1 and panics after the first emission,
recorded as ok = false.  The fuel argument only bounds the iteration
count; the entry point below supplies one more unit of fuel than there
are odometer states, so the fuel never runs out on a real run. -/
def runTemplate (cfg : Config) (positions : List (Nat × Char)) :
    Nat → List Char → List Nat → GenResult
  | 0, _, _ => ⟨[], 0, true⟩
  | fuel + 1, word, digits =>
    match renderOpt cfg.charset word (positions.zip digits) with
    | none => ⟨[], 0, false⟩
    | some word2 =>
      let out : Option (List (List Char)) :=
        if cfg.no_duplicates then
          match has_consecutive_duplicates word2 with
          | none => none
          | some true => some []
          | some false => some [word2]
        else some [word2]
      match out with
      | none => ⟨[], 0, false⟩
      | some lines =>
        if positions.isEmpty then ⟨lines, 1, false⟩
        else
          match odoInc cfg.charset positions digits with
          | none => ⟨lines, 1, true⟩
          | some ds =>
            let r := runTemplate cfg positions fuel word2 ds
            ⟨lines ++ r.lines, 1 + r.units, r.ok⟩

/-- Function generate_from_template of the source: position extraction,
the template as the initial word buffer, an all-zero odometer, and the
iteration loop. -/
def generate_from_template (cfg : Config) (t : List Char) : GenResult :=
  let positions := positionsOf t
  runTemplate cfg positions (prodRadix cfg.charset positions + 1)
    t (List.replicate positions.length 0)

/-- One length of the range-mode loop of generate_words: run
generate_all_combinations on the empty buffer at that length and append
its output, unless an earlier length already panicked. -/
def genStep (cs : List Char) (nd : Bool) (acc : GenResult) (len : Nat) : GenResult :=
  if acc.ok then
    let r := generate_all_combinations [] len cs nd
    ⟨acc.lines ++ r.lines, acc.units + r.units, r.ok⟩
  else acc

/-- Function generate_words of the source: template mode runs the
template loop; range mode runs generate_all_combinations once per length
of the inclusive range (the mutable buffer is empty again at each call),
stopping early if a run panics. -/
def generate_words (cfg : Config) : GenResult :=
  match cfg.template with
  | some t => generate_from_template cfg t
  | none =>
    (List.range' cfg.min_len (cfg.max_len + 1 - cfg.min_len)).foldl
      (genStep cfg.charset cfg.no_duplicates) ⟨[], 0, true⟩

/-! Helper lemmas about the duplicate predicate. -/

theorem getLast!_concat (w : List Char) (c : Char) : (w ++ [c]).getLast! = c := by
  cases w with
  | nil => simp [List.getLast!_cons]
  | cons a w => simp [List.getLast!_cons, List.getLastD_concat]

theorem getLast!_cons_cons (a b : Char) (l : List Char) :
    (a :: b :: l).getLast! = (b :: l).getLast! := by
  simp only [List.getLast!_cons, List.getLastD_cons]

theorem hcdAux_concat : ∀ (w : List Char) (c : Char), hcdAux w = false →
    (w = [] ∨ (c == w.getLast! && !c.isDigit) = false) → hcdAux (w ++ [c]) = false
  | [], c, _, _ => by simp [hcdAux]
  | [a], c, _, hc => by
    rcases hc with hc | hc
    · simp at hc
    · simp only [List.getLast!_cons, List.getLastD_nil] at hc
      simp only [List.cons_append, List.nil_append, hcdAux]
      by_cases hac : a = c
      · subst hac
        simp only [beq_self_eq_true, Bool.true_and] at hc
        simp [hc]
      · have hb : (a == c) = false := by simp [hac]
        simp [hb, hcdAux]
  | a :: b :: w, c, hw, hc => by
    simp only [hcdAux] at hw
    by_cases hP : ((!a.isDigit && !b.isDigit) && a == b) = true
    · rw [if_pos hP] at hw; simp at hw
    · rw [if_neg hP] at hw
      have hc2 : (b :: w) = [] ∨ (c == (b :: w).getLast! && !c.isDigit) = false := by
        rcases hc with hc | hc
        · cases hc
        · right; rwa [getLast!_cons_cons] at hc
      have ih := hcdAux_concat (b :: w) c hw hc2
      simp only [List.cons_append] at ih ⊢
      simp only [hcdAux]
      rw [if_neg hP]
      exact ih

theorem hcdAux_get : ∀ (w : List Char), hcdAux w = false →
    ∀ i c, w.get? i = some c → w.get? (i + 1) = some c → c.isDigit = true
  | [], _, i, c, h1, _ => by simp at h1
  | [a], _, i, c, _, h2 => by
    rw [List.get?_eq_none.mpr (by simp)] at h2; cases h2
  | a :: b :: w, hw, i, c, h1, h2 => by
    simp only [hcdAux] at hw
    by_cases hP : ((!a.isDigit && !b.isDigit) && a == b) = true
    · rw [if_pos hP] at hw; simp at hw
    · rw [if_neg hP] at hw
      cases i with
      | zero =>
        rw [List.get?_cons_zero] at h1
        rw [List.get?_cons_succ, List.get?_cons_zero] at h2
        obtain rfl : a = c := by injection h1
        obtain rfl : b = a := by injection h2
        simpa using hP
      | succ j =>
        rw [List.get?_cons_succ] at h1 h2
        exact hcdAux_get (b :: w) hw j c h1 h2

/-! Lemmas about the range-mode generator. -/

theorem hcd_some_false {w : List Char} (h : has_consecutive_duplicates w = some false) :
    hcdAux w = false := by
  cases w with
  | nil => simp [has_consecutive_duplicates] at h
  | cons a l =>
    simp only [has_consecutive_duplicates] at h
    injection h

theorem genGoAux_count (cs : List Char) (noDup : Bool) (descend : List Char → GenResult)
    (current : List Char) (K : Nat) :
    ∀ rest : List Char,
      (∀ c ∈ rest, skipCond noDup current c = false →
        (descend (current ++ [c])).lines.length = K ∧
        (descend (current ++ [c])).units = K ∧ (descend (current ++ [c])).ok = true) →
      (genGoAux cs noDup descend current rest).lines.length
          = (rest.filter (fun c => !skipCond noDup current c)).length * K ∧
      (genGoAux cs noDup descend current rest).units
          = (rest.filter (fun c => !skipCond noDup current c)).length * K ∧
      (genGoAux cs noDup descend current rest).ok = true := by
  intro rest
  induction rest with
  | nil => intro _; simp [genGoAux]
  | cons c rest ih =>
    intro hd
    have hdrest : ∀ c ∈ rest, skipCond noDup current c = false →
        (descend (current ++ [c])).lines.length = K ∧
        (descend (current ++ [c])).units = K ∧ (descend (current ++ [c])).ok = true :=
      fun c hc => hd c (List.mem_cons_of_mem _ hc)
    obtain ⟨ih1, ih2, ih3⟩ := ih hdrest
    by_cases hs : skipCond noDup current c = true
    · simp only [genGoAux, if_pos hs, List.filter_cons, hs, Bool.not_true]
      exact ⟨ih1, ih2, ih3⟩
    · rw [Bool.not_eq_true] at hs
      obtain ⟨h1, h2, h3⟩ := hd c (List.mem_cons_self c rest) hs
      simp only [genGoAux, hs, Bool.false_eq_true, if_false, h3, if_true,
        List.filter_cons, Bool.not_false, List.length_cons]
      refine ⟨?_, ?_, ih3⟩
      · simp only [List.length_append, h1, ih1]
        ring
      · simp only [h2, ih2]
        ring

theorem genAll_count_false (cs : List Char) : ∀ (n : Nat) (current : List Char),
    (generate_all_combinations current n cs false).lines.length = cs.length ^ n ∧
    (generate_all_combinations current n cs false).units = cs.length ^ n ∧
    (generate_all_combinations current n cs false).ok = true
  | 0, current => by simp [generate_all_combinations, emitLeaf]
  | n + 1, current => by
    have h := genGoAux_count cs false
      (fun cur2 => generate_all_combinations cur2 n cs false) current (cs.length ^ n) cs
      (fun c _ _ => genAll_count_false cs n (current ++ [c]))
    have hf : (cs.filter (fun c => !skipCond false current c)) = cs := by
      simp [skipCond]
    rw [hf] at h
    simpa [generate_all_combinations, pow_succ, Nat.mul_comm] using h

theorem mem_genGoAux (cs : List Char) (noDup : Bool) (descend : List Char → GenResult)
    (current : List Char) :
    ∀ rest w, w ∈ (genGoAux cs noDup descend current rest).lines →
      ∃ c, c ∈ rest ∧ w ∈ (descend (current ++ [c])).lines := by
  intro rest
  induction rest with
  | nil => intro w hw; simp [genGoAux] at hw
  | cons c rest ih =>
    intro w hw
    by_cases hs : skipCond noDup current c = true
    · simp only [genGoAux, if_pos hs] at hw
      obtain ⟨c2, hc2, hw2⟩ := ih w hw
      exact ⟨c2, List.mem_cons_of_mem _ hc2, hw2⟩
    · rw [Bool.not_eq_true] at hs
      simp only [genGoAux, hs, Bool.false_eq_true, if_false] at hw
      by_cases hok : (descend (current ++ [c])).ok = true
      · rw [if_pos hok] at hw
        simp only [List.mem_append] at hw
        rcases hw with hw | hw
        · exact ⟨c, List.mem_cons_self c rest, hw⟩
        · obtain ⟨c2, hc2, hw2⟩ := ih w hw
          exact ⟨c2, List.mem_cons_of_mem _ hc2, hw2⟩
      · rw [if_neg hok] at hw
        exact ⟨c, List.mem_cons_self c rest, hw⟩

theorem mem_genAll_length (cs : List Char) (noDup : Bool) : ∀ (n : Nat) (current w : List Char),
    w ∈ (generate_all_combinations current n cs noDup).lines → w.length = current.length + n
  | 0, current, w, hw => by
    have : w = current := by
      cases noDup with
      | false => simpa [generate_all_combinations, emitLeaf] using hw
      | true =>
        simp only [generate_all_combinations, emitLeaf, if_pos] at hw
        cases h : has_consecutive_duplicates current with
        | none => rw [h] at hw; simp at hw
        | some b =>
          rw [h] at hw
          cases b with
          | true => simp at hw
          | false => simpa using hw
    simp [this]
  | n + 1, current, w, hw => by
    obtain ⟨c, _, hw2⟩ := mem_genGoAux cs noDup
      (fun cur2 => generate_all_combinations cur2 n cs noDup) current cs w
      (by simpa [generate_all_combinations] using hw)
    have := mem_genAll_length cs noDup n (current ++ [c]) w hw2
    simp only [List.length_append, List.length_cons, List.length_nil] at this
    omega

theorem mem_genAll_hcd (cs : List Char) : ∀ (n : Nat) (current w : List Char),
    w ∈ (generate_all_combinations current n cs true).lines → hcdAux w = false
  | 0, current, w, hw => by
    simp only [generate_all_combinations, emitLeaf, if_pos] at hw
    cases h : has_consecutive_duplicates current with
    | none => rw [h] at hw; simp at hw
    | some b =>
      rw [h] at hw
      cases b with
      | true => simp at hw
      | false =>
        have : w = current := by simpa using hw
        rw [this]
        exact hcd_some_false h
  | n + 1, current, w, hw => by
    obtain ⟨c, _, hw2⟩ := mem_genGoAux cs true
      (fun cur2 => generate_all_combinations cur2 n cs true) current cs w
      (by simpa [generate_all_combinations] using hw)
    exact mem_genAll_hcd cs n (current ++ [c]) w hw2

/-! Progress units versus emitted lines in range mode. -/

theorem skipCond_false_concat (current : List Char) (c : Char)
    (h : skipCond true current c = false) (hcur : hcdAux current = false) :
    hcdAux (current ++ [c]) = false := by
  apply hcdAux_concat current c hcur
  by_cases hne : current.isEmpty = true
  · left; exact List.isEmpty_iff.mp hne
  · right
    rw [Bool.not_eq_true] at hne
    simpa [skipCond, hne] using h

theorem genGoAux_units_eq (cs : List Char) (descend : List Char → GenResult)
    (current : List Char)
    (hd : ∀ c, skipCond true current c = false →
        (descend (current ++ [c])).units = (descend (current ++ [c])).lines.length) :
    ∀ rest, (genGoAux cs true descend current rest).units
        = (genGoAux cs true descend current rest).lines.length := by
  intro rest
  induction rest with
  | nil => simp [genGoAux]
  | cons c rest ih =>
    by_cases hs : skipCond true current c = true
    · simp only [genGoAux, if_pos hs]; exact ih
    · rw [Bool.not_eq_true] at hs
      have h1 := hd c hs
      simp only [genGoAux, hs, Bool.false_eq_true, if_false]
      by_cases hok : (descend (current ++ [c])).ok = true
      · simp only [if_pos hok]
        simp [List.length_append, h1, ih]
      · simp only [if_neg hok]
        exact h1

theorem genAll_units_eq (cs : List Char) : ∀ (n : Nat) (current : List Char),
    hcdAux current = false →
    (generate_all_combinations current n cs true).units
      = (generate_all_combinations current n cs true).lines.length
  | 0, current, hcur => by
    simp only [generate_all_combinations, emitLeaf, if_true]
    cases current with
    | nil => simp [has_consecutive_duplicates]
    | cons a l =>
      simp only [has_consecutive_duplicates]
      rw [hcur]
      simp
  | n + 1, current, hcur => by
    simp only [generate_all_combinations]
    exact genGoAux_units_eq cs _ current
      (fun c hs => genAll_units_eq cs n (current ++ [c])
        (skipCond_false_concat current c hs hcur)) cs

theorem foldl_genStep_spec (cs : List Char) (nd : Bool) : ∀ (ls : List Nat) (acc : GenResult),
    acc.ok = true → (∀ l ∈ ls, (generate_all_combinations [] l cs nd).ok = true) →
    (ls.foldl (genStep cs nd) acc).lines
        = acc.lines ++ ls.flatMap (fun l => (generate_all_combinations [] l cs nd).lines) ∧
    (ls.foldl (genStep cs nd) acc).units
        = acc.units + (ls.map (fun l => (generate_all_combinations [] l cs nd).units)).sum ∧
    (ls.foldl (genStep cs nd) acc).ok = true := by
  intro ls
  induction ls with
  | nil => intro acc hacc _; simp [hacc]
  | cons l ls ih =>
    intro acc hacc hall
    have hl := hall l (List.mem_cons_self l ls)
    rw [List.foldl_cons]
    have hstep : genStep cs nd acc l =
        ⟨acc.lines ++ (generate_all_combinations [] l cs nd).lines,
         acc.units + (generate_all_combinations [] l cs nd).units,
         (generate_all_combinations [] l cs nd).ok⟩ := by
      simp [genStep, hacc]
    rw [hstep]
    obtain ⟨h1, h2, h3⟩ := ih
      ⟨acc.lines ++ (generate_all_combinations [] l cs nd).lines,
        acc.units + (generate_all_combinations [] l cs nd).units,
        (generate_all_combinations [] l cs nd).ok⟩
      hl (fun l2 hl2 => hall l2 (List.mem_cons_of_mem _ hl2))
    refine ⟨?_, ?_, h3⟩
    · rw [h1]; simp [List.flatMap_cons, List.append_assoc]
    · rw [h2]; simp [Nat.add_assoc]

theorem mem_foldl_genStep (cs : List Char) (nd : Bool) : ∀ (ls : List Nat) (acc : GenResult)
    (w : List Char), w ∈ (ls.foldl (genStep cs nd) acc).lines →
    w ∈ acc.lines ∨ ∃ l, l ∈ ls ∧ w ∈ (generate_all_combinations [] l cs nd).lines := by
  intro ls
  induction ls with
  | nil => intro acc w hw; exact Or.inl (by simpa using hw)
  | cons l ls ih =>
    intro acc w hw
    rw [List.foldl_cons] at hw
    rcases ih _ w hw with hmem | ⟨l2, hl2, hw2⟩
    · by_cases hok : acc.ok = true
      · simp only [genStep, if_pos hok] at hmem
        rcases List.mem_append.mp hmem with h | h
        · exact Or.inl h
        · exact Or.inr ⟨l, List.mem_cons_self l ls, h⟩
      · simp only [genStep, if_neg hok] at hmem
        exact Or.inl hmem
    · exact Or.inr ⟨l2, List.mem_cons_of_mem _ hl2, hw2⟩

theorem foldl_genStep_units_eq (cs : List Char) (nd : Bool)
    (hall : ∀ l, (generate_all_combinations [] l cs nd).units
        = (generate_all_combinations [] l cs nd).lines.length) :
    ∀ (ls : List Nat) (acc : GenResult), acc.units = acc.lines.length →
    (ls.foldl (genStep cs nd) acc).units = (ls.foldl (genStep cs nd) acc).lines.length := by
  intro ls
  induction ls with
  | nil => intro acc h; simpa using h
  | cons l ls ih =>
    intro acc h
    rw [List.foldl_cons]
    apply ih
    by_cases hok : acc.ok = true
    · simp [genStep, hok, List.length_append, h, hall l]
    · simp [genStep, hok, h]

theorem generate_words_units (cfg : Config) (ht : cfg.template = none) :
    (generate_words cfg).units = (generate_words cfg).lines.length := by
  have hall : ∀ l, (generate_all_combinations [] l cfg.charset cfg.no_duplicates).units
      = (generate_all_combinations [] l cfg.charset cfg.no_duplicates).lines.length := by
    intro l
    cases hnd : cfg.no_duplicates with
    | false =>
      obtain ⟨h1, h2, _⟩ := genAll_count_false cfg.charset l []
      rw [h1, h2]
    | true => exact genAll_units_eq cfg.charset l [] rfl
  simp only [generate_words, ht]
  exact foldl_genStep_units_eq _ _ hall _ _ rfl

/-! Counting the pruned enumeration over a digit-free duplicate-free charset. -/

theorem genAll_count_true (cs : List Char) (hdf : ∀ c ∈ cs, c.isDigit = false)
    (hnd : cs.Nodup) : ∀ (n : Nat) (current : List Char),
    current ≠ [] → hcdAux current = false → current.getLast! ∈ cs →
    (generate_all_combinations current n cs true).lines.length = (cs.length - 1) ^ n ∧
    (generate_all_combinations current n cs true).units = (cs.length - 1) ^ n ∧
    (generate_all_combinations current n cs true).ok = true
  | 0, current, hne, hcur, _ => by
    simp only [generate_all_combinations, emitLeaf, if_true]
    cases current with
    | nil => exact absurd rfl hne
    | cons a l =>
      simp only [has_consecutive_duplicates]
      rw [hcur]
      simp
  | n + 1, current, hne, hcur, hlast => by
    have hd : ∀ c ∈ cs, skipCond true current c = false →
        ((fun cur2 => generate_all_combinations cur2 n cs true) (current ++ [c])).lines.length
            = (cs.length - 1) ^ n ∧
        ((fun cur2 => generate_all_combinations cur2 n cs true) (current ++ [c])).units
            = (cs.length - 1) ^ n ∧
        ((fun cur2 => generate_all_combinations cur2 n cs true) (current ++ [c])).ok = true := by
      intro c hc hs
      exact genAll_count_true cs hdf hnd n (current ++ [c]) (by simp)
        (skipCond_false_concat current c hs hcur) (by rw [getLast!_concat]; exact hc)
    have h := genGoAux_count cs true
      (fun cur2 => generate_all_combinations cur2 n cs true) current ((cs.length - 1) ^ n) cs hd
    have hnem : current.isEmpty = false := by
      cases current with
      | nil => exact absurd rfl hne
      | cons a l => rfl
    have hfe : cs.filter (fun c => !skipCond true current c)
        = cs.filter (fun c => !(c == current.getLast!)) := by
      apply List.filter_congr
      intro c hc
      simp [skipCond, hnem, hdf c hc]
    have hcount : (cs.filter (fun c => (c == current.getLast!))).length = 1 := by
      rw [← List.countP_eq_length_filter, ← List.count_eq_countP]
      exact List.count_eq_one_of_mem hnd hlast
    have hsplit : cs.length = (cs.filter (fun c => (c == current.getLast!))).length
        + (cs.filter (fun c => !(c == current.getLast!))).length :=
      List.length_eq_length_filter_add _
    have hfil : (cs.filter (fun c => !skipCond true current c)).length = cs.length - 1 := by
      rw [hfe]; omega
    rw [hfil] at h
    obtain ⟨h1, h2, h3⟩ := h
    refine ⟨?_, ?_, ?_⟩
    · simp only [generate_all_combinations]
      rw [h1, pow_succ, Nat.mul_comm]
    · simp only [generate_all_combinations]
      rw [h2, pow_succ, Nat.mul_comm]
    · simp only [generate_all_combinations]
      exact h3

theorem genAll_top_count_true (cs : List Char) (hdf : ∀ c ∈ cs, c.isDigit = false)
    (hnd : cs.Nodup) (L : Nat) (hL : 1 ≤ L) :
    (generate_all_combinations [] L cs true).lines.length
        = cs.length * (cs.length - 1) ^ (L - 1) ∧
    (generate_all_combinations [] L cs true).units
        = cs.length * (cs.length - 1) ^ (L - 1) ∧
    (generate_all_combinations [] L cs true).ok = true := by
  obtain ⟨n, rfl⟩ : ∃ n, L = n + 1 := ⟨L - 1, by omega⟩
  have hd : ∀ c ∈ cs, skipCond true [] c = false →
      ((fun cur2 => generate_all_combinations cur2 n cs true) ([] ++ [c])).lines.length
          = (cs.length - 1) ^ n ∧
      ((fun cur2 => generate_all_combinations cur2 n cs true) ([] ++ [c])).units
          = (cs.length - 1) ^ n ∧
      ((fun cur2 => generate_all_combinations cur2 n cs true) ([] ++ [c])).ok = true := by
    intro c hc _
    exact genAll_count_true cs hdf hnd n ([] ++ [c]) (by simp) rfl
      (by simp only [List.nil_append, List.getLast!_cons, List.getLastD_nil]; exact hc)
  have h := genGoAux_count cs true
    (fun cur2 => generate_all_combinations cur2 n cs true) [] ((cs.length - 1) ^ n) cs hd
  have hfil : cs.filter (fun c => !skipCond true [] c) = cs := by
    simp [skipCond]
  rw [hfil] at h
  simpa [generate_all_combinations, Nat.add_sub_cancel] using h

theorem foldl_mul_mod (m : Nat) : ∀ (k c : Nat), c < U64 → c * m ^ k < U64 →
    (List.range k).foldl (fun t _ => t * m % U64) c = c * m ^ k
  | 0, c, _, _ => by simp
  | k + 1, c, hc, hof => by
    have hof2 : c * m ^ k < U64 := by
      rcases Nat.eq_zero_or_pos m with rfl | hm
      · cases k with
        | zero => simpa using hc
        | succ j =>
          have hz : c * 0 ^ (j + 1) = 0 := by simp
          rw [hz]; decide
      · calc c * m ^ k ≤ c * m ^ (k + 1) :=
              Nat.mul_le_mul_left c (Nat.pow_le_pow_right hm (by omega))
          _ < U64 := hof
    rw [List.range_succ, List.foldl_append, foldl_mul_mod m k c hc hof2]
    simp only [List.foldl_cons, List.foldl_nil]
    have he : c * m ^ k * m = c * m ^ (k + 1) := by rw [pow_succ, Nat.mul_assoc]
    rw [he, Nat.mod_eq_of_lt hof]

theorem calc_comb_eq (L n : Nat) (h2 : 2 ≤ L) (hn : n < U32)
    (hof : n * (n - 1) ^ (L - 1) < U64) :
    calculate_combinations_no_duplicates L n = n * (n - 1) ^ (L - 1) := by
  have hL0 : ¬(L = 0) := by omega
  have hL1 : ¬(L = 1) := by omega
  simp only [calculate_combinations_no_duplicates, hL0, hL1, if_false]
  rcases Nat.eq_zero_or_pos n with rfl | hn1
  · have h0 : (0 : Nat) < U64 := by decide
    have := foldl_mul_mod ((0 + U32 - 1) % U32) (L - 1) 0 h0 (by simpa using h0)
    simpa using this
  · have hm : (n + U32 - 1) % U32 = n - 1 := by
      have hrw : n + U32 - 1 = (n - 1) + U32 := by omega
      rw [hrw, Nat.add_mod_right]
      exact Nat.mod_eq_of_lt (by omega)
    rw [hm]
    exact foldl_mul_mod (n - 1) (L - 1) n (lt_trans hn (by decide)) hof

theorem length_filter_flatMap {α β : Type} (ls : List α) (f : α → List β) (p : β → Bool) :
    ((ls.flatMap f).filter p).length = (ls.map (fun a => ((f a).filter p).length)).sum := by
  induction ls with
  | nil => simp
  | cons a ls ih => simp [List.flatMap_cons, List.filter_append, ih]

/-! Odometer bookkeeping for the template-mode run. -/

/-- The digit at every odometer position is below that position's radix
(always true of the states the loop visits). -/
def wfDigits (cs : List Char) : List (Nat × Char) → List Nat → Prop
  | [], [] => True
  | p :: ps, d :: ds => d < radixOf cs p.2 ∧ wfDigits cs ps ds
  | _, _ => False

/-- Numeric value of an odometer state, most significant digit first. -/
def odoVal (cs : List Char) : List (Nat × Char) → List Nat → Nat
  | p :: ps, d :: ds => d * prodRadix cs ps + odoVal cs ps ds
  | _, _ => 0

theorem wfDigits_length (cs : List Char) : ∀ (ps : List (Nat × Char)) (ds : List Nat),
    wfDigits cs ps ds → ds.length = ps.length := by
  intro ps
  induction ps with
  | nil =>
    intro ds h
    cases ds with
    | nil => rfl
    | cons d ds => exact absurd h (by simp [wfDigits])
  | cons p ps ih =>
    intro ds h
    cases ds with
    | nil => exact absurd h (by simp [wfDigits])
    | cons d ds => simp [ih ds h.2]

theorem wfDigits_radix_pos (cs : List Char) : ∀ (ps : List (Nat × Char)) (ds : List Nat),
    wfDigits cs ps ds → ∀ p ∈ ps, 0 < radixOf cs p.2 := by
  intro ps
  induction ps with
  | nil => intro ds _ p hp; simp at hp
  | cons q ps ih =>
    intro ds h p hp
    cases ds with
    | nil => exact absurd h (by simp [wfDigits])
    | cons d ds =>
      rcases List.mem_cons.mp hp with rfl | hp2
      · exact Nat.lt_of_le_of_lt (Nat.zero_le d) h.1
      · exact ih ds h.2 p hp2

theorem prodRadix_pos (cs : List Char) : ∀ (ps : List (Nat × Char)),
    (∀ p ∈ ps, 0 < radixOf cs p.2) → 0 < prodRadix cs ps := by
  intro ps
  induction ps with
  | nil => intro _; simp [prodRadix]
  | cons p ps ih =>
    intro h
    simp only [prodRadix]
    exact Nat.mul_pos (h p (List.mem_cons_self p ps))
      (ih (fun q hq => h q (List.mem_cons_of_mem _ hq)))

theorem odoVal_lt_prod (cs : List Char) : ∀ (ps : List (Nat × Char)) (ds : List Nat),
    wfDigits cs ps ds → odoVal cs ps ds < prodRadix cs ps := by
  intro ps
  induction ps with
  | nil =>
    intro ds h
    cases ds with
    | nil => simp [odoVal, prodRadix]
    | cons d ds => exact absurd h (by simp [wfDigits])
  | cons p ps ih =>
    intro ds h
    cases ds with
    | nil => exact absurd h (by simp [wfDigits])
    | cons d ds =>
      obtain ⟨hd, hwf⟩ := h
      have hv := ih ds hwf
      simp only [odoVal, prodRadix]
      calc d * prodRadix cs ps + odoVal cs ps ds
          < d * prodRadix cs ps + prodRadix cs ps := by omega
        _ = (d + 1) * prodRadix cs ps := by ring
        _ ≤ radixOf cs p.2 * prodRadix cs ps :=
            Nat.mul_le_mul_right _ (by omega)

theorem wfDigits_replicate (cs : List Char) : ∀ (ps : List (Nat × Char)),
    (∀ p ∈ ps, 0 < radixOf cs p.2) → wfDigits cs ps (List.replicate ps.length 0) := by
  intro ps
  induction ps with
  | nil => intro _; simp [wfDigits]
  | cons p ps ih =>
    intro h
    simp only [List.length_cons, List.replicate_succ, wfDigits]
    exact ⟨h p (List.mem_cons_self p ps), ih (fun q hq => h q (List.mem_cons_of_mem _ hq))⟩

theorem odoVal_replicate (cs : List Char) : ∀ (ps : List (Nat × Char)) (k : Nat),
    odoVal cs ps (List.replicate k 0) = 0 := by
  intro ps
  induction ps with
  | nil => intro k; cases k <;> simp [odoVal]
  | cons p ps ih =>
    intro k
    cases k with
    | zero => simp [odoVal]
    | succ k => simp [List.replicate_succ, odoVal, ih]

theorem odoInc_none_val (cs : List Char) : ∀ (ps : List (Nat × Char)) (ds : List Nat),
    wfDigits cs ps ds → odoInc cs ps ds = none →
    odoVal cs ps ds + 1 = prodRadix cs ps := by
  intro ps
  induction ps with
  | nil =>
    intro ds hwf _
    cases ds with
    | nil => simp [odoVal, prodRadix]
    | cons d ds => exact absurd hwf (by simp [wfDigits])
  | cons p ps ih =>
    intro ds hwf hinc
    cases ds with
    | nil => exact absurd hwf (by simp [wfDigits])
    | cons d ds =>
      obtain ⟨hd, hwf2⟩ := hwf
      cases ps with
      | nil =>
        cases ds with
        | nil =>
          simp only [odoInc] at hinc
          by_cases h : d + 1 < radixOf cs p.2
          · rw [if_pos h] at hinc; cases hinc
          · simp only [odoVal, prodRadix]
            simp only [odoVal, prodRadix] at *
            omega
        | cons d2 ds2 => exact absurd hwf2 (by simp [wfDigits])
      | cons p2 ps2 =>
        cases ds with
        | nil => exact absurd hwf2 (by simp [wfDigits])
        | cons d2 ds2 =>
          simp only [odoInc] at hinc
          cases hi : odoInc cs (p2 :: ps2) (d2 :: ds2) with
          | some ds3 => rw [hi] at hinc; cases hinc
          | none =>
            rw [hi] at hinc
            by_cases h : d + 1 < radixOf cs p.2
            · rw [if_pos h] at hinc; cases hinc
            · have hrec := ih (d2 :: ds2) hwf2 hi
              simp only [odoVal, prodRadix] at *
              have hr : radixOf cs p.2 = d + 1 := by omega
              rw [hr, Nat.add_mul, Nat.one_mul]
              omega

theorem odoInc_some_val (cs : List Char) : ∀ (ps : List (Nat × Char)) (ds ds2 : List Nat),
    wfDigits cs ps ds → odoInc cs ps ds = some ds2 →
    wfDigits cs ps ds2 ∧ odoVal cs ps ds2 = odoVal cs ps ds + 1 := by
  intro ps
  induction ps with
  | nil =>
    intro ds ds2 hwf hinc
    cases ds with
    | nil => simp [odoInc] at hinc
    | cons d ds => exact absurd hwf (by simp [wfDigits])
  | cons p ps ih =>
    intro ds ds2 hwf hinc
    cases ds with
    | nil => exact absurd hwf (by simp [wfDigits])
    | cons d ds =>
      obtain ⟨hd, hwf2⟩ := hwf
      cases ps with
      | nil =>
        cases ds with
        | nil =>
          simp only [odoInc] at hinc
          by_cases h : d + 1 < radixOf cs p.2
          · rw [if_pos h] at hinc
            obtain rfl : ds2 = [d + 1] := by injection hinc with h2; exact h2.symm
            refine ⟨⟨h, by simp [wfDigits]⟩, ?_⟩
            simp [odoVal, prodRadix]
          · rw [if_neg h] at hinc; cases hinc
        | cons d2 dsx => exact absurd hwf2 (by simp [wfDigits])
      | cons p2 ps2 =>
        cases ds with
        | nil => exact absurd hwf2 (by simp [wfDigits])
        | cons d2 ds3 =>
          simp only [odoInc] at hinc
          cases hi : odoInc cs (p2 :: ps2) (d2 :: ds3) with
          | some ds4 =>
            rw [hi] at hinc
            obtain rfl : ds2 = d :: ds4 := by injection hinc with h2; exact h2.symm
            obtain ⟨hwf4, hval4⟩ := ih (d2 :: ds3) ds4 hwf2 hi
            refine ⟨⟨hd, hwf4⟩, ?_⟩
            have e1 : odoVal cs (p :: p2 :: ps2) (d :: ds4)
                = d * prodRadix cs (p2 :: ps2) + odoVal cs (p2 :: ps2) ds4 := rfl
            have e2 : odoVal cs (p :: p2 :: ps2) (d :: d2 :: ds3)
                = d * prodRadix cs (p2 :: ps2) + odoVal cs (p2 :: ps2) (d2 :: ds3) := rfl
            rw [e1, e2, hval4]
            omega
          | none =>
            rw [hi] at hinc
            by_cases h : d + 1 < radixOf cs p.2
            · rw [if_pos h] at hinc
              obtain rfl : ds2 = (d + 1) :: List.replicate (d2 :: ds3).length 0 := by
                injection hinc with h2; exact h2.symm
              have hlen : (d2 :: ds3).length = (p2 :: ps2).length :=
                wfDigits_length cs _ _ hwf2
              have hpos : ∀ q ∈ p2 :: ps2, 0 < radixOf cs q.2 :=
                wfDigits_radix_pos cs _ _ hwf2
              have hrec := odoInc_none_val cs (p2 :: ps2) (d2 :: ds3) hwf2 hi
              refine ⟨⟨h, by rw [hlen]; exact wfDigits_replicate cs _ hpos⟩, ?_⟩
              have e1 : odoVal cs (p :: p2 :: ps2) ((d + 1) :: List.replicate (d2 :: ds3).length 0)
                  = (d + 1) * prodRadix cs (p2 :: ps2)
                    + odoVal cs (p2 :: ps2) (List.replicate (d2 :: ds3).length 0) := rfl
              have e2 : odoVal cs (p :: p2 :: ps2) (d :: d2 :: ds3)
                  = d * prodRadix cs (p2 :: ps2) + odoVal cs (p2 :: ps2) (d2 :: ds3) := rfl
              rw [e1, e2, odoVal_replicate]
              have hx : (d + 1) * prodRadix cs (p2 :: ps2)
                  = d * prodRadix cs (p2 :: ps2) + prodRadix cs (p2 :: ps2) := by ring
              omega
            · rw [if_neg h] at hinc; cases hinc

/-! Single-byte facts and the byte-indexed replacement. -/

theorem utf8Len_eq_length (l : List Char) (h : ∀ c ∈ l, c.utf8Size = 1) :
    utf8Len l = l.length := by
  induction l with
  | nil => rfl
  | cons c rest ih =>
    have hc := h c (List.mem_cons_self _ _)
    have hr := ih (fun x hx => h x (List.mem_cons_of_mem _ hx))
    simp only [utf8Len, List.map_cons, List.sum_cons, List.length_cons] at hr ⊢
    omega

theorem utf8Len_pos (l : List Char) (h : l ≠ []) : 0 < utf8Len l := by
  cases l with
  | nil => exact absurd rfl h
  | cons c rest =>
    have := Char.utf8Size_pos c
    simp only [utf8Len, List.map_cons, List.sum_cons]
    omega

theorem DIGITS_single : ∀ c ∈ DIGITS, c.utf8Size = 1 := by decide

theorem alphabetOf_single (cs : List Char) (hcs1 : ∀ c ∈ cs, c.utf8Size = 1) (c : Char) :
    ∀ ch ∈ alphabetOf cs c, ch.utf8Size = 1 := by
  intro ch hch
  by_cases h : (c == '@') = true
  · rw [alphabetOf, if_pos h] at hch
    exact hcs1 ch hch
  · rw [alphabetOf, if_neg h] at hch
    exact DIGITS_single ch hch

theorem radixOf_eq_alphabet (cs : List Char) (hcs1 : ∀ c ∈ cs, c.utf8Size = 1) (c : Char) :
    radixOf cs c = (alphabetOf cs c).length := by
  by_cases h : (c == '@') = true
  · rw [radixOf, alphabetOf, if_pos h, if_pos h]
    exact utf8Len_eq_length cs hcs1
  · rw [radixOf, alphabetOf, if_neg h, if_neg h]
    decide

theorem replaceByteRange_length : ∀ (w : List Char) (i : Nat) (ch : Char) (w2 : List Char),
    replaceByteRange w i ch = some w2 → w2.length = w.length := by
  intro w
  induction w with
  | nil => intro i ch w2 h; simp [replaceByteRange] at h
  | cons c rest ih =>
    intro i ch w2 h
    rw [replaceByteRange] at h
    by_cases hi : i = 0
    · rw [if_pos hi] at h
      by_cases hc : c.utf8Size = 1
      · rw [if_pos hc] at h
        obtain rfl : ch :: rest = w2 := by injection h
        simp
      · rw [if_neg hc] at h; cases h
    · rw [if_neg hi] at h
      by_cases hle : c.utf8Size ≤ i
      · rw [if_pos hle] at h
        cases hr : replaceByteRange rest (i - c.utf8Size) ch with
        | none => rw [hr] at h; cases h
        | some r =>
          rw [hr] at h
          simp only [Option.map_some'] at h
          obtain rfl : c :: r = w2 := by injection h
          simp only [List.length_cons, ih _ _ _ hr]
      · rw [if_neg hle] at h; cases h

theorem replaceByteRange_single : ∀ (w : List Char) (i : Nat) (ch : Char),
    (∀ c ∈ w, c.utf8Size = 1) → i < w.length →
    replaceByteRange w i ch = some (w.set i ch) := by
  intro w
  induction w with
  | nil => intro i ch _ hi; simp at hi
  | cons c rest ih =>
    intro i ch h1 hi
    have hc : c.utf8Size = 1 := h1 c (List.mem_cons_self _ _)
    rw [replaceByteRange]
    cases i with
    | zero => rw [if_pos rfl, if_pos hc]; rfl
    | succ j =>
      rw [if_neg (by omega), if_pos (by omega)]
      have hj : j + 1 - c.utf8Size = j := by omega
      rw [hj, ih j ch (fun x hx => h1 x (List.mem_cons_of_mem _ hx)) (by simpa using hi)]
      rfl

theorem foldl_renderStep_none (cs : List Char) : ∀ (pairs : List ((Nat × Char) × Nat)),
    pairs.foldl (renderStep cs) none = none := by
  intro pairs
  induction pairs with
  | nil => rfl
  | cons pd pairs ih => simpa [renderStep] using ih

theorem wfDigits_zip (cs : List Char) : ∀ (ps : List (Nat × Char)) (ds : List Nat),
    wfDigits cs ps ds → ∀ pd ∈ ps.zip ds, pd.2 < radixOf cs pd.1.2 := by
  intro ps
  induction ps with
  | nil => intro ds _ pd hpd; simp at hpd
  | cons p ps ih =>
    intro ds hwf pd hpd
    cases ds with
    | nil => simp at hpd
    | cons d ds =>
      obtain ⟨hd, hwf2⟩ := hwf
      rw [List.zip_cons_cons] at hpd
      rcases List.mem_cons.mp hpd with rfl | hpd2
      · exact hd
      · exact ih ds hwf2 pd hpd2

theorem renderFold_length (cs : List Char) : ∀ (pairs : List ((Nat × Char) × Nat))
    (word w2 : List Char),
    pairs.foldl (renderStep cs) (some word) = some w2 → w2.length = word.length := by
  intro pairs
  induction pairs with
  | nil =>
    intro word w2 h
    obtain rfl : word = w2 := by simpa using h
    rfl
  | cons pd pairs ih =>
    intro word w2 h
    rw [List.foldl_cons] at h
    cases hch : (alphabetOf cs pd.1.2).get? pd.2 with
    | none =>
      rw [show renderStep cs (some word) pd = none by simp only [renderStep]; rw [hch],
        foldl_renderStep_none] at h
      cases h
    | some ch =>
      cases hrb : replaceByteRange word pd.1.1 ch with
      | none =>
        rw [show renderStep cs (some word) pd = none by
            simp only [renderStep]; rw [hch]; exact hrb,
          foldl_renderStep_none] at h
        cases h
      | some w1 =>
        rw [show renderStep cs (some word) pd = some w1 by
            simp only [renderStep]; rw [hch]; exact hrb] at h
        rw [ih w1 w2 h]
        exact replaceByteRange_length word pd.1.1 ch w1 hrb

theorem renderFold_single_props (cs : List Char) (hcs1 : ∀ c ∈ cs, c.utf8Size = 1) :
    ∀ (pairs : List ((Nat × Char) × Nat)) (word w2 : List Char),
    (∀ c ∈ word, c.utf8Size = 1) → (∀ pd ∈ pairs, pd.1.1 < word.length) →
    pairs.foldl (renderStep cs) (some word) = some w2 →
    (∀ c ∈ w2, c.utf8Size = 1) ∧ w2.length = word.length ∧
      ∀ i, (∀ pd ∈ pairs, pd.1.1 ≠ i) → w2.get? i = word.get? i := by
  intro pairs
  induction pairs with
  | nil =>
    intro word w2 hw _ h
    obtain rfl : word = w2 := by simpa using h
    exact ⟨hw, rfl, fun _ _ => rfl⟩
  | cons pd pairs ih =>
    intro word w2 hw hlt h
    rw [List.foldl_cons] at h
    cases hch : (alphabetOf cs pd.1.2).get? pd.2 with
    | none =>
      rw [show renderStep cs (some word) pd = none by simp only [renderStep]; rw [hch],
        foldl_renderStep_none] at h
      cases h
    | some ch =>
      have hchs : ch.utf8Size = 1 :=
        alphabetOf_single cs hcs1 pd.1.2 ch (List.get?_mem hch)
      have hidx : pd.1.1 < word.length := hlt pd (List.mem_cons_self _ _)
      have hrb : replaceByteRange word pd.1.1 ch = some (word.set pd.1.1 ch) :=
        replaceByteRange_single word pd.1.1 ch hw hidx
      rw [show renderStep cs (some word) pd = some (word.set pd.1.1 ch) by
          simp only [renderStep]; rw [hch]; exact hrb] at h
      have hw1 : ∀ c ∈ word.set pd.1.1 ch, c.utf8Size = 1 := by
        intro c hc
        rcases List.mem_or_eq_of_mem_set hc with hm | rfl
        · exact hw c hm
        · exact hchs
      have hlt1 : ∀ q ∈ pairs, q.1.1 < (word.set pd.1.1 ch).length := by
        intro q hq
        rw [List.length_set]
        exact hlt q (List.mem_cons_of_mem _ hq)
      obtain ⟨p1, p2, p3⟩ := ih (word.set pd.1.1 ch) w2 hw1 hlt1 h
      refine ⟨p1, by rw [p2, List.length_set], ?_⟩
      intro i hni
      rw [p3 i (fun q hq => hni q (List.mem_cons_of_mem _ hq))]
      exact List.get?_set_ne _ _ (hni pd (List.mem_cons_self _ _))

theorem renderFold_single_some (cs : List Char) (hcs1 : ∀ c ∈ cs, c.utf8Size = 1) :
    ∀ (pairs : List ((Nat × Char) × Nat)) (word : List Char),
    (∀ c ∈ word, c.utf8Size = 1) →
    (∀ pd ∈ pairs, pd.1.1 < word.length ∧ pd.2 < (alphabetOf cs pd.1.2).length) →
    ∃ w2, pairs.foldl (renderStep cs) (some word) = some w2 := by
  intro pairs
  induction pairs with
  | nil => intro word _ _; exact ⟨word, rfl⟩
  | cons pd pairs ih =>
    intro word hw hb
    obtain ⟨hidx, hdig⟩ := hb pd (List.mem_cons_self _ _)
    have hch : (alphabetOf cs pd.1.2).get? pd.2
        = some ((alphabetOf cs pd.1.2).get ⟨pd.2, hdig⟩) := List.get?_eq_get hdig
    have hchs : ((alphabetOf cs pd.1.2).get ⟨pd.2, hdig⟩).utf8Size = 1 :=
      alphabetOf_single cs hcs1 pd.1.2 _ (List.get?_mem hch)
    have hrb := replaceByteRange_single word pd.1.1
      ((alphabetOf cs pd.1.2).get ⟨pd.2, hdig⟩) hw hidx
    rw [List.foldl_cons,
      show renderStep cs (some word) pd
          = some (word.set pd.1.1 ((alphabetOf cs pd.1.2).get ⟨pd.2, hdig⟩)) by
        simp only [renderStep]; rw [hch]; exact hrb]
    apply ih
    · intro c hc
      rcases List.mem_or_eq_of_mem_set hc with hm | rfl
      · exact hw c hm
      · exact hchs
    · intro q hq
      refine ⟨?_, (hb q (List.mem_cons_of_mem _ hq)).2⟩
      rw [List.length_set]
      exact (hb q (List.mem_cons_of_mem _ hq)).1

theorem renderOpt_none_of_empty (cs : List Char) :
    ∀ (pairs : List ((Nat × Char) × Nat)) (word : List Char),
    (∃ pd ∈ pairs, alphabetOf cs pd.1.2 = []) →
    pairs.foldl (renderStep cs) (some word) = none := by
  intro pairs
  induction pairs with
  | nil => intro word h; simp at h
  | cons pd pairs ih =>
    intro word h
    rw [List.foldl_cons]
    cases hst : renderStep cs (some word) pd with
    | none => exact foldl_renderStep_none cs pairs
    | some w1 =>
      apply ih
      rcases h with ⟨q, hq, hqe⟩
      rcases List.mem_cons.mp hq with rfl | hq2
      · exfalso
        have hnone : renderStep cs (some word) q = none := by
          simp only [renderStep]
          rw [hqe]
          rfl
        rw [hnone] at hst
        cases hst
      · exact ⟨q, hq2, hqe⟩

theorem mem_zip_left {α β : Type} : ∀ (l1 : List α) (l2 : List β), l1.length = l2.length →
    ∀ a ∈ l1, ∃ b, (a, b) ∈ l1.zip l2 := by
  intro l1
  induction l1 with
  | nil => intro l2 _ a ha; simp at ha
  | cons x l1 ih =>
    intro l2 hlen a ha
    cases l2 with
    | nil => simp at hlen
    | cons y l2 =>
      rcases List.mem_cons.mp ha with rfl | ha2
      · exact ⟨y, by rw [List.zip_cons_cons]; exact List.mem_cons_self _ _⟩
      · obtain ⟨b, hb⟩ := ih l2 (by simpa using hlen) a ha2
        exact ⟨b, by rw [List.zip_cons_cons]; exact List.mem_cons_of_mem _ hb⟩

/-! The template-mode loop: candidate and unit counts, emitted-line facts. -/

theorem out_eq_some {cfg : Config} {word2 : List Char} {lines0 : List (List Char)}
    (hq : (if cfg.no_duplicates then
        match has_consecutive_duplicates word2 with
        | none => none
        | some true => some []
        | some false => some [word2]
      else some [word2]) = some lines0) :
    ∀ v ∈ lines0, v = word2 ∧ (cfg.no_duplicates = true → hcdAux v = false) := by
  intro v hv
  cases hnd : cfg.no_duplicates with
  | false =>
    rw [hnd] at hq
    simp only [Bool.false_eq_true, if_false] at hq
    obtain rfl : [word2] = lines0 := by injection hq
    have : v = word2 := by simpa using hv
    exact ⟨this, by intro h; cases h⟩
  | true =>
    rw [hnd] at hq
    simp only [if_true] at hq
    cases hh : has_consecutive_duplicates word2 with
    | none => rw [hh] at hq; cases hq
    | some b =>
      rw [hh] at hq
      cases b with
      | true =>
        obtain rfl : ([] : List (List Char)) = lines0 := by injection hq
        simp at hv
      | false =>
        obtain rfl : [word2] = lines0 := by injection hq
        have hvw : v = word2 := by simpa using hv
        refine ⟨hvw, fun _ => ?_⟩
        rw [hvw]
        exact hcd_some_false hh

theorem out_exists (cfg : Config) (word2 : List Char) (hne : word2 ≠ []) :
    ∃ lines0, (if cfg.no_duplicates then
        match has_consecutive_duplicates word2 with
        | none => none
        | some true => some []
        | some false => some [word2]
      else some [word2]) = some lines0 ∧ lines0.length ≤ 1 ∧
      (cfg.no_duplicates = false → lines0 = [word2]) := by
  cases hnd : cfg.no_duplicates with
  | false =>
    exact ⟨[word2], by simp, by simp, fun _ => rfl⟩
  | true =>
    cases word2 with
    | nil => exact absurd rfl hne
    | cons a l =>
      cases hb : hcdAux (a :: l) with
      | true =>
        refine ⟨[], ?_, by simp, fun hf => by simp at hf⟩
        simp [has_consecutive_duplicates, hb]
      | false =>
        refine ⟨[a :: l], ?_, by simp, fun hf => by simp at hf⟩
        simp [has_consecutive_duplicates, hb]

theorem runTemplate_run (cfg : Config) (positions : List (Nat × Char)) (n : Nat)
    (hpos : positions ≠ []) (hn : 0 < n) (hplt : ∀ p ∈ positions, p.1 < n)
    (hcs1 : ∀ c ∈ cfg.charset, c.utf8Size = 1) :
    ∀ (fuel : Nat) (word : List Char) (digits : List Nat),
      (∀ c ∈ word, c.utf8Size = 1) → word.length = n →
      wfDigits cfg.charset positions digits →
      prodRadix cfg.charset positions ≤ fuel + odoVal cfg.charset positions digits →
      (runTemplate cfg positions fuel word digits).units
          = prodRadix cfg.charset positions - odoVal cfg.charset positions digits ∧
      (runTemplate cfg positions fuel word digits).lines.length
          ≤ prodRadix cfg.charset positions - odoVal cfg.charset positions digits ∧
      (runTemplate cfg positions fuel word digits).ok = true ∧
      (cfg.no_duplicates = false →
        (runTemplate cfg positions fuel word digits).lines.length
            = prodRadix cfg.charset positions - odoVal cfg.charset positions digits) := by
  intro fuel
  induction fuel with
  | zero =>
    intro word digits _ _ hwf hle
    have := odoVal_lt_prod cfg.charset positions digits hwf
    omega
  | succ fuel ih =>
    intro word digits hw hwn hwf hle
    have hval := odoVal_lt_prod cfg.charset positions digits hwf
    have hbounds : ∀ pd ∈ positions.zip digits,
        pd.1.1 < word.length ∧ pd.2 < (alphabetOf cfg.charset pd.1.2).length := by
      intro pd hpd
      have h1 := (List.of_mem_zip hpd).1
      refine ⟨by rw [hwn]; exact hplt pd.1 h1, ?_⟩
      have h2 := wfDigits_zip cfg.charset positions digits hwf pd hpd
      rwa [radixOf_eq_alphabet cfg.charset hcs1] at h2
    obtain ⟨word2, hrender⟩ := renderFold_single_some cfg.charset hcs1
      (positions.zip digits) word hw hbounds
    obtain ⟨hw2, hl2, -⟩ := renderFold_single_props cfg.charset hcs1
      (positions.zip digits) word word2 hw (fun pd hpd => (hbounds pd hpd).1) hrender
    have hw2ne : word2 ≠ [] := by
      intro he
      rw [he] at hl2
      simp only [List.length_nil] at hl2
      omega
    obtain ⟨lines0, hq, hlen0, hfull⟩ := out_exists cfg word2 hw2ne
    have hie : positions.isEmpty = false := by
      cases positions with
      | nil => exact absurd rfl hpos
      | cons a l => rfl
    have hrender2 : renderOpt cfg.charset word (positions.zip digits) = some word2 := hrender
    simp only [runTemplate, hrender2, hq, hie, Bool.false_eq_true, if_false]
    cases hi : odoInc cfg.charset positions digits with
    | none =>
      have hv1 := odoInc_none_val cfg.charset positions digits hwf hi
      refine ⟨by simp; omega, by simp; omega, rfl, fun hf => ?_⟩
      simp only [hfull hf]
      simp
      omega
    | some ds2 =>
      obtain ⟨hwf2, hval2⟩ := odoInc_some_val cfg.charset positions digits ds2 hwf hi
      obtain ⟨ihu, ihl, ihok, ihfull⟩ := ih word2 ds2 hw2 (by rw [hl2, hwn]) hwf2 (by omega)
      refine ⟨?_, ?_, ihok, fun hf => ?_⟩
      · simp only [ihu]
        omega
      · simp only [List.length_append]
        have := ihl
        omega
      · simp only [List.length_append, ihfull hf, hfull hf]
        simp
        omega

theorem mem_runTemplate_hcd (cfg : Config) (positions : List (Nat × Char)) :
    ∀ (fuel : Nat) (word : List Char) (digits : List Nat) (w : List Char),
    w ∈ (runTemplate cfg positions fuel word digits).lines →
    cfg.no_duplicates = true → hcdAux w = false := by
  intro fuel
  induction fuel with
  | zero => intro word digits w hw _; simp [runTemplate] at hw
  | succ fuel ih =>
    intro word digits w hw hnd
    cases hr : renderOpt cfg.charset word (positions.zip digits) with
    | none => rw [runTemplate, hr] at hw; simp at hw
    | some word2 =>
      simp only [runTemplate, hr] at hw
      cases hq : (if cfg.no_duplicates then
            match has_consecutive_duplicates word2 with
            | none => none
            | some true => some []
            | some false => some [word2]
          else some [word2] : Option (List (List Char))) with
      | none => simp only [hq] at hw; simp at hw
      | some lines0 =>
        simp only [hq] at hw
        by_cases hie : positions.isEmpty = true
        · rw [if_pos hie] at hw
          obtain ⟨rfl, hh⟩ := out_eq_some hq w hw
          exact hh hnd
        · rw [if_neg hie] at hw
          cases hi : odoInc cfg.charset positions digits with
          | none =>
            simp only [hi] at hw
            obtain ⟨rfl, hh⟩ := out_eq_some hq w hw
            exact hh hnd
          | some ds2 =>
            simp only [hi] at hw
            rcases List.mem_append.mp hw with hw2 | hw2
            · obtain ⟨rfl, hh⟩ := out_eq_some hq w hw2
              exact hh hnd
            · exact ih word2 ds2 w hw2 hnd

theorem mem_runTemplate_length (cfg : Config) (positions : List (Nat × Char)) :
    ∀ (fuel : Nat) (word : List Char) (digits : List Nat) (w : List Char),
    w ∈ (runTemplate cfg positions fuel word digits).lines → w.length = word.length := by
  intro fuel
  induction fuel with
  | zero => intro word digits w hw; simp [runTemplate] at hw
  | succ fuel ih =>
    intro word digits w hw
    cases hr : renderOpt cfg.charset word (positions.zip digits) with
    | none => rw [runTemplate, hr] at hw; simp at hw
    | some word2 =>
      have hlen2 : word2.length = word.length :=
        renderFold_length cfg.charset (positions.zip digits) word word2 hr
      simp only [runTemplate, hr] at hw
      cases hq : (if cfg.no_duplicates then
            match has_consecutive_duplicates word2 with
            | none => none
            | some true => some []
            | some false => some [word2]
          else some [word2] : Option (List (List Char))) with
      | none => simp only [hq] at hw; simp at hw
      | some lines0 =>
        simp only [hq] at hw
        by_cases hie : positions.isEmpty = true
        · rw [if_pos hie] at hw
          obtain ⟨rfl, -⟩ := out_eq_some hq w hw
          exact hlen2
        · rw [if_neg hie] at hw
          cases hi : odoInc cfg.charset positions digits with
          | none =>
            simp only [hi] at hw
            obtain ⟨rfl, -⟩ := out_eq_some hq w hw
            exact hlen2
          | some ds2 =>
            simp only [hi] at hw
            rcases List.mem_append.mp hw with hw2 | hw2
            · obtain ⟨rfl, -⟩ := out_eq_some hq w hw2
              exact hlen2
            · rw [ih word2 ds2 w hw2]
              exact hlen2

theorem mem_runTemplate_offpos (cfg : Config) (positions : List (Nat × Char))
    (hcs1 : ∀ c ∈ cfg.charset, c.utf8Size = 1) :
    ∀ (fuel : Nat) (word : List Char) (digits : List Nat) (w : List Char),
    (∀ c ∈ word, c.utf8Size = 1) → (∀ p ∈ positions, p.1 < word.length) →
    w ∈ (runTemplate cfg positions fuel word digits).lines →
    ∀ i, (∀ p ∈ positions, p.1 ≠ i) → w.get? i = word.get? i := by
  intro fuel
  induction fuel with
  | zero => intro word digits w _ _ hw; simp [runTemplate] at hw
  | succ fuel ih =>
    intro word digits w hw1 hplt hw
    cases hr : renderOpt cfg.charset word (positions.zip digits) with
    | none => rw [runTemplate, hr] at hw; simp at hw
    | some word2 =>
      have hpairs : ∀ pd ∈ positions.zip digits, pd.1.1 < word.length := by
        intro pd hpd
        exact hplt pd.1 (List.of_mem_zip hpd).1
      obtain ⟨hsb2, hlen2, hoff2⟩ := renderFold_single_props cfg.charset hcs1
        (positions.zip digits) word word2 hw1 hpairs hr
      have hoffp : ∀ i, (∀ p ∈ positions, p.1 ≠ i) → word2.get? i = word.get? i := by
        intro i hni
        exact hoff2 i (fun pd hpd => hni pd.1 (List.of_mem_zip hpd).1)
      simp only [runTemplate, hr] at hw
      cases hq : (if cfg.no_duplicates then
            match has_consecutive_duplicates word2 with
            | none => none
            | some true => some []
            | some false => some [word2]
          else some [word2] : Option (List (List Char))) with
      | none => simp only [hq] at hw; simp at hw
      | some lines0 =>
        simp only [hq] at hw
        by_cases hie : positions.isEmpty = true
        · rw [if_pos hie] at hw
          obtain ⟨rfl, -⟩ := out_eq_some hq w hw
          exact hoffp
        · rw [if_neg hie] at hw
          cases hi : odoInc cfg.charset positions digits with
          | none =>
            simp only [hi] at hw
            obtain ⟨rfl, -⟩ := out_eq_some hq w hw
            exact hoffp
          | some ds2 =>
            simp only [hi] at hw
            rcases List.mem_append.mp hw with hw2 | hw2
            · obtain ⟨rfl, -⟩ := out_eq_some hq w hw2
              exact hoffp
            · intro i hni
              have hrec := ih word2 ds2 w hsb2
                (fun p hp => by rw [hlen2]; exact hplt p hp) hw2 i hni
              rw [hrec]
              exact hoffp i hni

/-! Relating template slots, radices and the counter. -/

theorem positionsOf_mem {t : List Char} {p : Nat × Char} (hp : p ∈ positionsOf t) :
    t.get? p.1 = some p.2 ∧ (p.2 = '@' ∨ p.2 = '%') := by
  have h := List.mem_filter.mp hp
  refine ⟨List.mem_enum_iff_get?.mp h.1, ?_⟩
  have h2 := h.2
  simp only [Bool.or_eq_true, beq_iff_eq] at h2
  exact h2

theorem positionsOf_lt (t : List Char) : ∀ p ∈ positionsOf t, p.1 < t.length := by
  intro p hp
  have hg := (positionsOf_mem hp).1
  by_contra hc
  rw [List.get?_eq_none.mpr (by omega)] at hg
  cases hg

theorem prodRadix_eq_pow (cs : List Char) : ∀ (ps : List (Nat × Char)),
    (∀ p ∈ ps, p.2 = '@' ∨ p.2 = '%') →
    prodRadix cs ps = utf8Len cs ^ (ps.filter (fun p => p.2 == '@')).length
        * 10 ^ (ps.filter (fun p => p.2 == '%')).length := by
  intro ps
  induction ps with
  | nil => intro _; simp [prodRadix]
  | cons p ps ih =>
    intro h
    have hrec := ih (fun q hq => h q (List.mem_cons_of_mem _ hq))
    rcases h p (List.mem_cons_self _ _) with hp | hp
    · have hr : radixOf cs p.2 = utf8Len cs := by
        rw [hp, radixOf, if_pos (by decide)]
      have hf1 : (p.2 == '@') = true := by rw [hp]; rfl
      have hf2 : (p.2 == '%') = false := by rw [hp]; rfl
      simp only [prodRadix, List.filter_cons, hf1, hf2, if_true, Bool.false_eq_true, if_false,
        List.length_cons, hrec, hr, pow_succ]
      ring
    · have hr : radixOf cs p.2 = 10 := by
        rw [hp, radixOf, if_neg (by decide)]
        decide
      have hf1 : (p.2 == '@') = false := by rw [hp]; rfl
      have hf2 : (p.2 == '%') = true := by rw [hp]; rfl
      simp only [prodRadix, List.filter_cons, hf1, hf2, if_true, Bool.false_eq_true, if_false,
        List.length_cons, hrec, hr, pow_succ]
      ring

theorem positionsOf_count (t : List Char) (c : Char) (hc : c = '@' ∨ c = '%') :
    ((positionsOf t).filter (fun p => p.2 == c)).length
        = (t.filter (fun x => x == c)).length := by
  have h1 : (positionsOf t).filter (fun p => p.2 == c)
      = t.enum.filter (fun p => p.2 == c) := by
    rw [positionsOf, List.filter_filter]
    apply List.filter_congr
    intro p _
    cases hq : (p.2 == c) with
    | false => simp
    | true =>
      have hpc : p.2 = c := beq_iff_eq.mp hq
      rcases hc with rfl | rfl
      · simp [hpc]
      · simp [hpc]
  have h2 : t.filter (fun x => x == c)
      = (t.enum.filter (fun p => p.2 == c)).map Prod.snd := by
    have hm := List.map_filter (p := fun x => x == c) Prod.snd t.enum
    rw [List.enum_map_snd] at hm
    rw [hm]
    rfl
  rw [h1, h2, List.length_map]

theorem positionsOf_nil_filter (t : List Char) (h : positionsOf t = []) (c : Char)
    (hc : c = '@' ∨ c = '%') : t.filter (fun x => x == c) = [] := by
  rw [List.filter_eq_nil]
  intro x hx hbx
  obtain ⟨i, hi⟩ := List.mem_iff_get?.mp hx
  have hmem : (i, x) ∈ positionsOf t := by
    rw [positionsOf]
    refine List.mem_filter.mpr ⟨List.mem_enum_iff_get?.mpr hi, ?_⟩
    have hxc : x = c := beq_iff_eq.mp hbx
    rcases hc with rfl | rfl <;> simp [hxc]
  rw [h] at hmem
  simp at hmem

theorem generate_from_template_nopos (cfg : Config) (t : List Char)
    (hnd : cfg.no_duplicates = false) (hpos : positionsOf t = []) :
    generate_from_template cfg t = ⟨[t], 1, false⟩ := by
  simp only [generate_from_template, hpos]
  rw [runTemplate]
  simp [renderOpt, hnd]

theorem generate_from_template_empty_cs (cfg : Config) (t : List Char)
    (hcs : cfg.charset = []) (hat : ∃ p ∈ positionsOf t, p.2 = '@') :
    generate_from_template cfg t = ⟨[], 0, false⟩ := by
  simp only [generate_from_template]
  rw [runTemplate]
  have hnone : renderOpt cfg.charset t
      ((positionsOf t).zip (List.replicate (positionsOf t).length 0)) = none := by
    apply renderOpt_none_of_empty
    obtain ⟨p, hp, hp2⟩ := hat
    obtain ⟨d, hd⟩ := mem_zip_left (positionsOf t) (List.replicate (positionsOf t).length 0)
      (by simp) p hp
    exact ⟨(p, d), hd, by simp [alphabetOf, hp2, hcs]⟩
  rw [hnone]

theorem generate_from_template_count (cfg : Config) (t : List Char)
    (hnd : cfg.no_duplicates = false) (hpos : positionsOf t ≠ [])
    (ht1 : ∀ c ∈ t, c.utf8Size = 1) (hcs1 : ∀ c ∈ cfg.charset, c.utf8Size = 1)
    (hr : ∀ p ∈ positionsOf t, 0 < radixOf cfg.charset p.2) :
    (generate_from_template cfg t).lines.length = prodRadix cfg.charset (positionsOf t) ∧
    (generate_from_template cfg t).ok = true := by
  simp only [generate_from_template]
  have hplt := positionsOf_lt t
  have hn : 0 < t.length := by
    obtain ⟨p, hp⟩ := List.exists_mem_of_ne_nil _ hpos
    have := hplt p hp
    omega
  have hwf := wfDigits_replicate cfg.charset (positionsOf t) hr
  have hv0 := odoVal_replicate cfg.charset (positionsOf t) (positionsOf t).length
  obtain ⟨-, -, hok, hfull⟩ := runTemplate_run cfg (positionsOf t) t.length hpos hn hplt hcs1
    (prodRadix cfg.charset (positionsOf t) + 1) t (List.replicate (positionsOf t).length 0)
    ht1 rfl hwf (by rw [hv0]; omega)
  refine ⟨?_, hok⟩
  rw [hfull hnd, hv0]
  omega

/-! Connecting the counter with the generator line counts. -/

theorem calculate_size_template_val (cfg : Config) (t : List Char) (ht : cfg.template = some t)
    (hnd : cfg.no_duplicates = false) (hlen : t.length < U32)
    (hof : utf8Len cfg.charset ^ (t.filter (fun c => c == '@')).length
        * 10 ^ (t.filter (fun c => c == '%')).length < U64) :
    calculate_size cfg = utf8Len cfg.charset ^ (t.filter (fun c => c == '@')).length
        * 10 ^ (t.filter (fun c => c == '%')).length := by
  have ha : (t.filter (fun c => c == '@')).length % U32 = (t.filter (fun c => c == '@')).length :=
    Nat.mod_eq_of_lt (lt_of_le_of_lt (List.length_filter_le _ _) hlen)
  have hb : (t.filter (fun c => c == '%')).length % U32 = (t.filter (fun c => c == '%')).length :=
    Nat.mod_eq_of_lt (lt_of_le_of_lt (List.length_filter_le _ _) hlen)
  simp only [calculate_size, ht, hnd, Bool.false_eq_true, if_false, ha, hb]
  rw [← Nat.mul_mod]
  rw [Nat.mod_eq_of_lt hof]

theorem template_count_eq (cfg : Config) (t : List Char) (ht : cfg.template = some t)
    (hnd : cfg.no_duplicates = false) (hlen : t.length < U32)
    (ht1 : ∀ c ∈ t, c.utf8Size = 1) (hcs1 : ∀ c ∈ cfg.charset, c.utf8Size = 1)
    (hof : exactCount cfg < U64) :
    calculate_size cfg = (generate_words cfg).lines.length := by
  have hu : utf8Len cfg.charset = cfg.charset.length := utf8Len_eq_length _ hcs1
  have hof2 : utf8Len cfg.charset ^ (t.filter (fun c => c == '@')).length
      * 10 ^ (t.filter (fun c => c == '%')).length < U64 := by
    have hexact : exactCount cfg = utf8Len cfg.charset ^ (t.filter (fun c => c == '@')).length
        * 10 ^ (t.filter (fun c => c == '%')).length := by
      simp only [exactCount, ht, hu]
    rw [← hexact]
    exact hof
  have hgw : generate_words cfg = generate_from_template cfg t := by
    simp only [generate_words, ht]
  rw [calculate_size_template_val cfg t ht hnd hlen hof2, hgw]
  by_cases hpos : positionsOf t = []
  · rw [generate_from_template_nopos cfg t hnd hpos,
      positionsOf_nil_filter t hpos '@' (Or.inl rfl), positionsOf_nil_filter t hpos '%' (Or.inr rfl)]
    simp
  · by_cases hcs : cfg.charset = [] ∧ ∃ p ∈ positionsOf t, p.2 = '@'
    · obtain ⟨hcse, p, hp, hp2⟩ := hcs
      rw [generate_from_template_empty_cs cfg t hcse ⟨p, hp, hp2⟩]
      have hat : '@' ∈ t.filter (fun x => x == '@') := by
        have hg := (positionsOf_mem hp).1
        rw [hp2] at hg
        refine List.mem_filter.mpr ⟨?_, by rfl⟩
        exact List.mem_iff_get?.mpr ⟨p.1, hg⟩
      have haL : 0 < (t.filter (fun x => x == '@')).length := List.length_pos.mpr
        (fun he => by rw [he] at hat; simp at hat)
      rw [hcse]
      have h0 : utf8Len ([] : List Char) = 0 := rfl
      simp only [h0, List.length_nil]
      rw [Nat.zero_pow haL]
      simp
    · have hr : ∀ p ∈ positionsOf t, 0 < radixOf cfg.charset p.2 := by
        intro p hp
        rcases (positionsOf_mem hp).2 with hp2 | hp2
        · have hne : cfg.charset ≠ [] := fun he => hcs ⟨he, p, hp, hp2⟩
          rw [hp2, radixOf, if_pos (by decide)]
          exact utf8Len_pos _ hne
        · rw [hp2, radixOf, if_neg (by decide)]
          decide
      obtain ⟨h1, -⟩ := generate_from_template_count cfg t hnd hpos ht1 hcs1 hr
      rw [h1, prodRadix_eq_pow cfg.charset (positionsOf t) (fun p hp => (positionsOf_mem hp).2),
        positionsOf_count t '@' (Or.inl rfl), positionsOf_count t '%' (Or.inr rfl)]

theorem foldl_add_pow_mod (cs : Nat) : ∀ (ls : List Nat) (init : Nat),
    (∀ l ∈ ls, l < U32) →
    init + (ls.map (fun l => cs ^ l)).sum < U64 →
    ls.foldl (fun total len => (total + cs ^ (len % U32) % U64) % U64) init
        = init + (ls.map (fun l => cs ^ l)).sum := by
  intro ls
  induction ls with
  | nil => intro init _ _; simp
  | cons l ls ih =>
    intro init hl hof
    rw [List.foldl_cons]
    rw [List.map_cons, List.sum_cons] at hof
    have hl32 : l % U32 = l := Nat.mod_eq_of_lt (hl l (List.mem_cons_self _ _))
    have hterm : cs ^ l < U64 := by omega
    have hstep : (init + cs ^ (l % U32) % U64) % U64 = init + cs ^ l := by
      rw [hl32, Nat.mod_eq_of_lt hterm, Nat.mod_eq_of_lt (by omega)]
    rw [hstep, ih (init + cs ^ l) (fun x hx => hl x (List.mem_cons_of_mem _ hx)) (by omega)]
    rw [List.map_cons, List.sum_cons]
    omega

theorem range_count_eq (cfg : Config) (ht : cfg.template = none)
    (hnd : cfg.no_duplicates = false) (hcs1 : ∀ c ∈ cfg.charset, c.utf8Size = 1)
    (hmax : cfg.max_len < U32) (hof : exactCount cfg < U64) :
    calculate_size cfg = (generate_words cfg).lines.length := by
  have hu : utf8Len cfg.charset = cfg.charset.length := utf8Len_eq_length _ hcs1
  have hls : ∀ l ∈ List.range' cfg.min_len (cfg.max_len + 1 - cfg.min_len), l < U32 := by
    intro l hlm
    have := List.mem_range'_1.mp hlm
    omega
  have hexact : exactCount cfg = ((List.range' cfg.min_len (cfg.max_len + 1 - cfg.min_len)).map
      (fun L => cfg.charset.length ^ L)).sum := by
    simp only [exactCount, ht]
  have hcalc : calculate_size cfg = exactCount cfg := by
    simp only [calculate_size, ht, hnd, Bool.false_eq_true, if_false, hu]
    rw [hexact] at hof ⊢
    simpa using foldl_add_pow_mod cfg.charset.length _ 0 hls (by omega)
  have hok : ∀ l ∈ List.range' cfg.min_len (cfg.max_len + 1 - cfg.min_len),
      (generate_all_combinations [] l cfg.charset cfg.no_duplicates).ok = true := by
    intro l _
    rw [hnd]
    exact (genAll_count_false cfg.charset l []).2.2
  have hgen : (generate_words cfg).lines.length = exactCount cfg := by
    simp only [generate_words, ht]
    obtain ⟨h1, _, _⟩ := foldl_genStep_spec cfg.charset cfg.no_duplicates
      (List.range' cfg.min_len (cfg.max_len + 1 - cfg.min_len)) ⟨[], 0, true⟩ rfl hok
    rw [h1, hexact]
    simp only [List.nil_append, List.length_flatMap]
    congr 1
    apply List.map_congr_left
    intro l _
    simp only [Function.comp]
    rw [hnd]
    exact (genAll_count_false cfg.charset l []).1
  rw [hcalc, ← hgen]

/-! The claims. -/

/-- C1 counterexample: the counter does not equal the number of emitted
lines for every configuration.  First, for the range configuration with
charset "a0", min_len = max_len = 2 and duplicate suppression on,
calculate_size returns 2 (the uniform formula 2 * (2-1)) while
generate_words emits the three lines a0, 0a, 00 (adjacent equal digits
are exempt from suppression but not from the counter's formula).
Second, even without suppression the counter uses the charset's byte
length: for the one-character charset "é" (two UTF-8 bytes) with
min_len = max_len = 1 it returns 2 while exactly one line é is
emitted. -/
theorem c1_counterexample :
    calculate_size ⟨2, 2, ['a', '0'], none, true⟩
        ≠ (generate_words ⟨2, 2, ['a', '0'], none, true⟩).lines.length ∧
    calculate_size ⟨2, 2, ['a', '0'], none, true⟩ = 2 ∧
    (generate_words ⟨2, 2, ['a', '0'], none, true⟩).lines
        = [['a', '0'], ['0', 'a'], ['0', '0']] ∧
    calculate_size ⟨1, 1, ['é'], none, false⟩ = 2 ∧
    (generate_words ⟨1, 1, ['é'], none, false⟩).lines = [['é']] := by
  refine ⟨?_, ?_, ?_, ?_, ?_⟩ <;> decide

/-- C1 (amended): for every configuration without duplicate suppression
whose charset (and, in template mode, template) consists of single-byte
characters, whose range lengths (respectively template length) fit in
u32 and whose exact total fits in u64, the value returned by
calculate_size equals the number of lines generate_words writes to the
sink (lines written before a panic included). -/
theorem c1_amended_count_eq (cfg : Config)
    (hnd : cfg.no_duplicates = false)
    (hcs1 : ∀ c ∈ cfg.charset, c.utf8Size = 1)
    (hb1 : ∀ t, cfg.template = some t → t.length < U32 ∧ ∀ c ∈ t, c.utf8Size = 1)
    (hb2 : cfg.template = none → cfg.max_len < U32)
    (hof : exactCount cfg < U64) :
    calculate_size cfg = (generate_words cfg).lines.length := by
  cases ht : cfg.template with
  | none => exact range_count_eq cfg ht hnd hcs1 (hb2 ht) hof
  | some t =>
    obtain ⟨hlen, ht1⟩ := hb1 t ht
    exact template_count_eq cfg t ht hnd hlen ht1 hcs1 hof

/-- C1 witness: the amended statement at the concrete configuration of
scenario A. -/
theorem c1_amended_witness :
    calculate_size ⟨1, 2, ['a', 'b'], none, false⟩
        = (generate_words ⟨1, 2, ['a', 'b'], none, false⟩).lines.length :=
  c1_amended_count_eq ⟨1, 2, ['a', 'b'], none, false⟩ rfl (by decide)
    (fun t ht => by cases ht) (fun _ => by decide) (by decide)

/-- C2: with duplicate suppression on, no emitted line (in either mode)
contains two adjacent equal characters of which neither is a decimal
digit, while lines with two adjacent equal digits can still be emitted
(witnessed by the charset "0" at length 2 emitting 00). -/
theorem c2_no_adjacent_nondigit_duplicates :
    (∀ (cfg : Config) (w : List Char) (i : Nat) (c : Char),
      cfg.no_duplicates = true → w ∈ (generate_words cfg).lines →
      w.get? i = some c → w.get? (i + 1) = some c → c.isDigit = true) ∧
    (∃ (cfg : Config) (w : List Char), cfg.no_duplicates = true ∧
      w ∈ (generate_words cfg).lines ∧
      ∃ (i : Nat) (c : Char), w.get? i = some c ∧ w.get? (i + 1) = some c ∧
        c.isDigit = true) := by
  constructor
  · intro cfg w i c hnd hw h1 h2
    have hcd : hcdAux w = false := by
      cases ht : cfg.template with
      | none =>
        simp only [generate_words, ht] at hw
        rcases mem_foldl_genStep cfg.charset cfg.no_duplicates _ _ w hw with h | ⟨l, _, h⟩
        · simp at h
        · rw [hnd] at h
          exact mem_genAll_hcd cfg.charset l [] w h
      | some t =>
        simp only [generate_words, ht, generate_from_template] at hw
        exact mem_runTemplate_hcd cfg (positionsOf t) _ _ _ w hw hnd
    exact hcdAux_get w hcd i c h1 h2
  · exact ⟨⟨2, 2, ['0'], none, true⟩, ['0', '0'], rfl, by decide, 0, '0',
      by decide, by decide, by decide⟩

/-- C2 witness: the universal part applied to the adjacent pair of the
emitted line 00 of the charset-"0" configuration. -/
theorem c2_witness : ('0').isDigit = true :=
  c2_no_adjacent_nondigit_duplicates.1 ⟨2, 2, ['0'], none, true⟩ ['0', '0'] 0 '0' rfl
    (by decide) (by decide) (by decide)

/-- C3: for a non-template configuration with suppression on, a
duplicate-free charset with no decimal digit, and any length L above one
inside the range (with the u32/u64 representability side conditions of
the source's casts), the number of emitted lines of length L is
charset-size times (charset-size minus one) to the (L minus one), and
calculate_combinations_no_duplicates returns the same value for L. -/
theorem c3_no_duplicates_count (cfg : Config) (L : Nat)
    (ht : cfg.template = none) (hnd : cfg.no_duplicates = true)
    (hdf : ∀ c ∈ cfg.charset, c.isDigit = false) (hcnd : cfg.charset.Nodup)
    (hmin : 1 ≤ cfg.min_len) (hL1 : 1 < L) (hLlo : cfg.min_len ≤ L) (hLhi : L ≤ cfg.max_len)
    (hL32 : L < U32) (hcs32 : cfg.charset.length < U32)
    (hof : cfg.charset.length * (cfg.charset.length - 1) ^ (L - 1) < U64) :
    ((generate_words cfg).lines.filter (fun w => w.length == L)).length
        = cfg.charset.length * (cfg.charset.length - 1) ^ (L - 1) ∧
    calculate_combinations_no_duplicates L cfg.charset.length
        = cfg.charset.length * (cfg.charset.length - 1) ^ (L - 1) := by
  constructor
  · have hok : ∀ l ∈ List.range' cfg.min_len (cfg.max_len + 1 - cfg.min_len),
        (generate_all_combinations [] l cfg.charset true).ok = true := by
      intro l hl
      have hl1 : 1 ≤ l := by have := List.mem_range'_1.mp hl; omega
      exact (genAll_top_count_true cfg.charset hdf hcnd l hl1).2.2
    simp only [generate_words, ht, hnd]
    obtain ⟨h1, -, -⟩ := foldl_genStep_spec cfg.charset true _ ⟨[], 0, true⟩ rfl hok
    rw [h1]
    simp only [List.nil_append]
    rw [length_filter_flatMap]
    have hz : ∀ l, l ≠ L → l ∈ List.range' cfg.min_len (cfg.max_len + 1 - cfg.min_len) →
        ((generate_all_combinations [] l cfg.charset true).lines.filter
          (fun w => w.length == L)).length = 0 := by
      intro l hne _
      rw [List.length_eq_zero, List.filter_eq_nil]
      intro w hw hbw
      have hwl := mem_genAll_length cfg.charset true l [] w hw
      simp only [List.length_nil, Nat.zero_add] at hwl
      rw [beq_iff_eq] at hbw
      exact hne (by omega)
    rw [List.sum_map_eq_nsmul_single L _ hz]
    have hmem : L ∈ List.range' cfg.min_len (cfg.max_len + 1 - cfg.min_len) :=
      List.mem_range'_1.mpr ⟨hLlo, by omega⟩
    rw [List.count_eq_one_of_mem (List.nodup_range' _ _) hmem, one_smul]
    have hfe : (generate_all_combinations [] L cfg.charset true).lines.filter
        (fun w => w.length == L) = (generate_all_combinations [] L cfg.charset true).lines := by
      rw [List.filter_eq_self]
      intro w hw
      have hwl := mem_genAll_length cfg.charset true L [] w hw
      simp only [List.length_nil, Nat.zero_add] at hwl
      simp [hwl]
    rw [hfe]
    exact (genAll_top_count_true cfg.charset hdf hcnd L (by omega)).1
  · exact calc_comb_eq L cfg.charset.length (by omega) hcs32 hof

/-- C3 witness: the statement at charset "ab" with both lengths 2. -/
theorem c3_witness :
    ((generate_words ⟨2, 2, ['a', 'b'], none, true⟩).lines.filter
        (fun w => w.length == 2)).length = 2 ∧
    calculate_combinations_no_duplicates 2 2 = 2 := by
  have h := c3_no_duplicates_count ⟨2, 2, ['a', 'b'], none, true⟩ 2 rfl rfl
    (by decide) (by decide) (by decide) (by decide) (by decide) (by decide)
    (by decide) (by decide) (by decide)
  simpa using h

/-- C4 counterexample: literal template positions are not always
preserved.  For the template at-x-at over the charset "éa" the
source's byte-indexed replace_range drifts off the template's character
positions as soon as the two-byte é is substituted at slot 0: the
second slot's replacement lands on byte 2, which is the literal x, so
the single emitted line is é-é-at — its character 1 is no longer the
template's literal x — after which the run aborts on a byte range that
is not a character boundary. -/
theorem c4_counterexample :
    generate_words ⟨0, 0, ['é', 'a'], some ['@', 'x', '@'], false⟩
        = ⟨[['é', 'é', '@']], 1, false⟩ ∧
    (['@', 'x', '@'] : List Char).get? 1 = some 'x' ∧
    'x' ≠ '@' ∧ 'x' ≠ '%' ∧
    ¬ (['é', 'é', '@'] : List Char).get? 1 = some 'x' := by
  refine ⟨?_, ?_, ?_, ?_, ?_⟩ <;> decide

/-- C4 (amended): in template mode every emitted line has exactly the
character length of the template; and when the template and the charset
consist of single-byte characters — so the byte indices the source
stores coincide with character indices — every literal (neither at-sign
nor percent) position of the template appears unchanged at the same
index in every emitted line. -/
theorem c4_amended_template_shape (cfg : Config) (t : List Char) (w : List Char)
    (ht : cfg.template = some t) (hw : w ∈ (generate_words cfg).lines) :
    w.length = t.length ∧
    ((∀ c ∈ t, c.utf8Size = 1) → (∀ c ∈ cfg.charset, c.utf8Size = 1) →
      ∀ (i : Nat) (c : Char), t.get? i = some c → c ≠ '@' → c ≠ '%' →
        w.get? i = some c) := by
  simp only [generate_words, ht, generate_from_template] at hw
  constructor
  · exact mem_runTemplate_length cfg (positionsOf t) _ _ _ w hw
  · intro ht1 hcs1 i c hic hc1 hc2
    have hoff := mem_runTemplate_offpos cfg (positionsOf t) hcs1 _ t _ w ht1
      (positionsOf_lt t) hw
    have hni : ∀ p ∈ positionsOf t, p.1 ≠ i := by
      intro p hp he
      obtain ⟨hg, hor⟩ := positionsOf_mem hp
      rw [he, hic] at hg
      have hceq : c = p.2 := by injection hg
      rcases hor with h | h
      · exact hc1 (by rw [hceq, h])
      · exact hc2 (by rw [hceq, h])
    rw [hoff i hni, hic]

/-- C4 witness: the amended statement at template "a@" over charset
"ab" (all single-byte) for the emitted line aa, read at the literal
position 0. -/
theorem c4_witness : (['a', 'a'] : List Char).get? 0 = some 'a' :=
  (c4_amended_template_shape ⟨0, 0, ['a', 'b'], some ['a', '@'], false⟩ ['a', '@'] ['a', 'a']
    rfl (by decide)).2 (by decide) (by decide) 0 'a' (by decide) (by decide) (by decide)

/-- C5 counterexample: for the range configuration with charset "ab",
both lengths 2 and suppression on, the four candidate strings of the
full product space contain two suppressed ones (aa and bb), yet only two
progress units are signalled (one per emitted line): suppressed range
candidates are pruned before the increment and produce no unit, so it is
false that one unit is signalled per candidate whether emitted or
filtered. -/
theorem c5_counterexample :
    (generate_words ⟨2, 2, ['a', 'b'], none, true⟩).units = 2 ∧
    (generate_words ⟨2, 2, ['a', 'b'], none, true⟩).lines.length = 2 ∧
    (generate_words ⟨2, 2, ['a', 'b'], none, false⟩).lines.length = 4 := by
  refine ⟨?_, ?_, ?_⟩ <;> decide

/-- C5 (amended): in range mode exactly one progress unit is signalled
per emitted line (candidates pruned by duplicate suppression produce no
unit); in template mode — for any single-byte template and non-empty
single-byte charset with at least one slot — one unit is signalled per
odometer candidate, whether emitted or filtered: the unit total is the
full product of the slot radices and the emitted lines never exceed it,
with strictness witnessed by template at-sign-at-sign over "ab" with
suppression: four units, two lines. -/
theorem c5_amended_progress_units :
    (∀ cfg : Config, cfg.template = none →
        (generate_words cfg).units = (generate_words cfg).lines.length) ∧
    (∀ (cfg : Config) (t : List Char), cfg.template = some t →
        (∀ c ∈ t, c.utf8Size = 1) → (∀ c ∈ cfg.charset, c.utf8Size = 1) →
        cfg.charset ≠ [] → positionsOf t ≠ [] →
        (generate_words cfg).units = prodRadix cfg.charset (positionsOf t) ∧
        (generate_words cfg).lines.length ≤ (generate_words cfg).units) ∧
    (generate_words ⟨0, 0, ['a', 'b'], some ['@', '@'], true⟩).units = 4 ∧
    (generate_words ⟨0, 0, ['a', 'b'], some ['@', '@'], true⟩).lines.length = 2 := by
  refine ⟨fun cfg ht => generate_words_units cfg ht, ?_, by decide, by decide⟩
  intro cfg t ht ht1 hcs1 hcsne hpos
  simp only [generate_words, ht, generate_from_template]
  have hplt := positionsOf_lt t
  have hn : 0 < t.length := by
    obtain ⟨p, hp⟩ := List.exists_mem_of_ne_nil _ hpos
    have := hplt p hp
    omega
  have hr : ∀ p ∈ positionsOf t, 0 < radixOf cfg.charset p.2 := by
    intro p hp
    rcases (positionsOf_mem hp).2 with hp2 | hp2
    · rw [hp2, radixOf, if_pos (by decide)]
      exact utf8Len_pos _ hcsne
    · rw [hp2, radixOf, if_neg (by decide)]
      decide
  have hwf := wfDigits_replicate cfg.charset (positionsOf t) hr
  have hv0 := odoVal_replicate cfg.charset (positionsOf t) (positionsOf t).length
  obtain ⟨hu, hl, -, -⟩ := runTemplate_run cfg (positionsOf t) t.length hpos hn hplt hcs1
    (prodRadix cfg.charset (positionsOf t) + 1) t (List.replicate (positionsOf t).length 0)
    ht1 rfl hwf (by rw [hv0]; omega)
  refine ⟨?_, ?_⟩
  · rw [hu, hv0]
    omega
  · rw [hu]
    exact hl

/-- C5 witness: the range part of the amended statement at the
counterexample configuration. -/
theorem c5_amended_witness :
    (generate_words ⟨2, 2, ['a', 'b'], none, true⟩).units
        = (generate_words ⟨2, 2, ['a', 'b'], none, true⟩).lines.length :=
  c5_amended_progress_units.1 ⟨2, 2, ['a', 'b'], none, true⟩ rfl

/-- C6: the counter performs plain wrapping u64 arithmetic: for charset
"ab" with both lengths 64 the exact total is 2 to the 64, and
calculate_size silently returns the wrapped value 0 instead of
detecting the overflow and surfacing a configuration error. -/
theorem c6_overflow_wraps :
    calculate_size ⟨64, 64, ['a', 'b'], none, false⟩ = 0 ∧
    exactCount ⟨64, 64, ['a', 'b'], none, false⟩ = 2 ^ 64 := by
  constructor <;> decide

/-- C7: scenario A: charset "ab" with lengths 1 to 2 and no suppression
emits exactly a, b, aa, ab, ba, bb in that order, and the counter
returns 6. -/
theorem c7_scenario_a :
    (generate_words ⟨1, 2, ['a', 'b'], none, false⟩).lines
        = [['a'], ['b'], ['a', 'a'], ['a', 'b'], ['b', 'a'], ['b', 'b']] ∧
    calculate_size ⟨1, 2, ['a', 'b'], none, false⟩ = 6 := by
  constructor <;> decide

set_option maxRecDepth 10000 in
/-- C8: scenario C: template percent-percent-dash-at-at over charset
"xy" with no suppression emits exactly 400 lines, each two digits, the
literal dash, then two characters from x and y, and the counter
returns 400. -/
theorem c8_scenario_c :
    (generate_words ⟨0, 0, ['x', 'y'], some ['%', '%', '-', '@', '@'], false⟩).lines.length
        = 400 ∧
    calculate_size ⟨0, 0, ['x', 'y'], some ['%', '%', '-', '@', '@'], false⟩ = 400 ∧
    ((generate_words ⟨0, 0, ['x', 'y'], some ['%', '%', '-', '@', '@'], false⟩).lines.all
      (fun w => match w with
        | [d1, d2, h, c1, c2] => d1.isDigit && d2.isDigit && h == '-'
            && (c1 == 'x' || c1 == 'y') && (c2 == 'x' || c2 == 'y')
        | _ => false)) = true := by
  refine ⟨?_, ?_, ?_⟩ <;> decide

/-- C9: for a template with no at-sign and no percent sign the counter
returns 1 and the generator emits the literal template as its single
line, but it then panics (the position-list length underflows in the
odometer-increment step) instead of terminating normally, recorded by
the ok flag being false. -/
theorem c9_literal_template_panics :
    calculate_size ⟨0, 0, ['a', 'b'], some ['a', 'b', 'c'], false⟩ = 1 ∧
    generate_words ⟨0, 0, ['a', 'b'], some ['a', 'b', 'c'], false⟩
        = ⟨[['a', 'b', 'c']], 1, false⟩ := by
  constructor <;> decide

/-- C10: the duplicate predicate returns false without error on every
one-character string, panics on the empty string (modelled by none),
and the panic is reachable from the public interface: a range
configuration with min_len 0 and suppression on aborts with no lines,
no units and ok false. -/
theorem c10_empty_word_panics :
    (∀ c : Char, has_consecutive_duplicates [c] = some false) ∧
    has_consecutive_duplicates [] = none ∧
    generate_words ⟨0, 0, ['a', 'b'], none, true⟩ = ⟨[], 0, false⟩ := by
  refine ⟨fun c => rfl, rfl, by decide⟩

/-- C10 witness: the one-character case of the predicate at a concrete
character. -/
theorem c10_witness : has_consecutive_duplicates ['x'] = some false :=
  c10_empty_word_panics.1 'x'
